import Mathlib

/-!
Verification of the record-normalization, deduplication, CSV and merge logic of
the 跑团小助手 repository (src/跑团小助手/db_editor.py and src/跑团小助手/linkStart.py).

Modelling conventions (shallow embedding):

* A parsed JSON document is modelled by the inductive type `JVal`.  Python's
  `json.loads` yields `None`/`bool`/numbers/`str`/`list`/`dict`; dictionaries are
  modelled as insertion-ordered association lists (`List (String × JVal)`), which
  is how CPython dictionaries behave.  JSON numbers are modelled as integers; no
  claim in scope depends on float behaviour.
* `json.loads` itself is an external library function; functions that call it are
  parameterised by a `parse : String → Option JVal` argument (`none` models a
  `json.JSONDecodeError`).  `json.dump` followed by `json.loads` is modelled as
  the identity on the serialized `JVal` document.
* Python truthiness (`if x:`) is `pyTruthy`; `str.strip()` is `pyStrip` (ASCII
  whitespace; exotic Unicode whitespace is out of scope); `str(x)` is `pyStr`
  (for containers the textual form is approximated, no claim depends on it);
  `d[k] = v` on a dict is `alSet` (updates in place, appends when absent);
  `d.get(k)` is `alGet`.
* Python's `str.splitlines` is modelled by splitting on the newline character;
  per-line `.strip()` removes any `\r` of a `\r\n` ending just as CPython does.
-/

namespace DB

/-- Model of a parsed JSON value as returned by `json.loads`. -/
inductive JVal where
  | jnull
  | jbool (b : Bool)
  | jnum (n : Int)
  | jstr (s : String)
  | jarr (items : List JVal)
  | jobj (entries : List (String × JVal))

/-- Records are Python dicts: insertion-ordered string-keyed association lists. -/
abbrev Record := List (String × JVal)

/-- Python truthiness of a JSON value (`if x:`). -/
def pyTruthy : JVal → Bool
  | .jnull => false
  | .jbool b => b
  | .jnum n => n != 0
  | .jstr s => s != ""
  | .jarr items => !items.isEmpty
  | .jobj entries => !entries.isEmpty

/-- Truthiness of `d.get(k)`: Python's `None` (absent key) is falsy. -/
def pyTruthyOpt : Option JVal → Bool
  | none => false
  | some v => pyTruthy v

/-- Characters stripped by Python's `str.strip()` (ASCII whitespace). -/
def isPyWS (c : Char) : Bool :=
  c = ' ' || c = '\t' || c = '\n' || c = '\r' || c = '\x0b' || c = '\x0c'

/-- Strip from a character list: drop leading and trailing whitespace. -/
def stripChars (l : List Char) : List Char :=
  ((l.dropWhile isPyWS).reverse.dropWhile isPyWS).reverse

/-- Python `str.strip()`. -/
def pyStrip (s : String) : String := ⟨stripChars s.data⟩

/-- Decimal digit list (most significant first) of a natural number, with fuel.
With fuel `n + 1` this renders `n` exactly as Python's `str` does. -/
def natStrGo : Nat → Nat → List Char
  | 0, _ => []
  | fuel + 1, n =>
    if n < 10 then [Nat.digitChar n]
    else natStrGo fuel (n / 10) ++ [Nat.digitChar (n % 10)]

/-- Decimal rendering of a natural number, as Python's `str` produces it. -/
def natStr (n : Nat) : String := ⟨natStrGo (n + 1) n⟩

/-- Decimal rendering of an integer, as Python's `str` produces it. -/
def intStr : Int → String
  | .ofNat n => natStr n
  | .negSucc n => "-" ++ natStr (n + 1)

/-- Single-quote character, used by Python's `repr` of strings. -/
def sqc : String := (Char.ofNat 39).toString

/-- Comma-join, as in Python's rendering of list/dict literals. -/
def joinComma : List String → String
  | [] => ""
  | [s] => s
  | s :: rest => s ++ ", " ++ joinComma rest

mutual

/-- Python `repr` of a JSON value, approximated (string escaping is not
modelled; no claim in scope depends on the container rendering). -/
def pyRepr : JVal → String
  | .jnull => "None"
  | .jbool true => "True"
  | .jbool false => "False"
  | .jnum n => intStr n
  | .jstr s => sqc ++ s ++ sqc
  | .jarr items => "[" ++ joinComma (pyReprList items) ++ "]"
  | .jobj entries => "\x7b" ++ joinComma (pyReprObj entries) ++ "\x7d"

/-- Renders the elements of a JSON array, as `repr` does. -/
def pyReprList : List JVal → List String
  | [] => []
  | v :: vs => pyRepr v :: pyReprList vs

/-- Renders the entries of a JSON object, as `repr` does. -/
def pyReprObj : List (String × JVal) → List String
  | [] => []
  | kv :: rest => (sqc ++ kv.1 ++ sqc ++ ": " ++ pyRepr kv.2) :: pyReprObj rest

end

/-- Python `str` of a JSON value. -/
def pyStr : JVal → String
  | .jstr s => s
  | .jnull => "None"
  | .jbool true => "True"
  | .jbool false => "False"
  | .jnum n => intStr n
  | .jarr items => pyRepr (.jarr items)
  | .jobj entries => pyRepr (.jobj entries)

/-- Python dict read access `d.get(k)` on an association list. -/
def alGet {α : Type} : List (String × α) → String → Option α
  | [], _ => none
  | kv :: rest, k => if kv.1 = k then some kv.2 else alGet rest k

/-- Python dict write `d[k] = v`: replaces the value in place when the key is
present (insertion order kept), appends otherwise. -/
def alSet {α : Type} (d : List (String × α)) (k : String) (v : α) : List (String × α) :=
  if (alGet d k).isSome then d.map (fun kv => if kv.1 = k then (k, v) else kv)
  else d ++ [(k, v)]

/-- Python `a or b` over optional JSON values: `a` when truthy, else `b`
(`none` models Python `None`). -/
def pyOrV (a b : Option JVal) : Option JVal :=
  match a with
  | some v => if pyTruthy v then some v else b
  | none => b

/-- JSON `null` values are replaced by the empty string by the normalizers
(`v if v is not None else ""`). -/
def nullToEmpty : JVal → JVal
  | .jnull => .jstr ""
  | v => v

/-- Model of `str.splitlines`: split on newline characters.  (CPython also
splits on `\r` and rarer separators; every line in scope is `\n`-separated, and
a trailing `\r` is removed by the per-line `.strip()` just as in the source.) -/
def splitLinesGo (cur : List Char) : List Char → List String
  | [] => [⟨cur.reverse⟩]
  | c :: cs => if c = '\n' then ⟨cur.reverse⟩ :: splitLinesGo [] cs else splitLinesGo (c :: cur) cs

/-- Split a text into its lines. -/
def splitLines (t : String) : List String := splitLinesGo [] t.data

/-- Shared loop of `norm_one` (db_editor.py:61-64) and `_normalize_record`
(linkStart.py:61-67): copy entries with a non-empty trimmed key, storing the
trimmed key and replacing `null` values by the empty string.  Object keys are
strings (as produced by `json.loads`), so `str(k)` is the key itself and the
`k is None` guard of linkStart never fires. -/
def normOut (entries : List (String × JVal)) : Record :=
  entries.foldl
    (fun out kv =>
      let kk := pyStrip kv.1
      if kk = "" then out else alSet out kk (nullToEmpty kv.2))
    []

/-- Name derivation chain `rec.get("名称") or rec.get("title") or fallback_name`
used by both normalizers (on different dictionaries). -/
def nameChain (d : List (String × JVal)) (fallback : Option String) : Option JVal :=
  pyOrV (alGet d "名称") (pyOrV (alGet d "title") (fallback.map .jstr))

/-- Output dictionary of `norm_one` for a mapping input, after the
name-derivation step (db_editor.py:65-68): when no `name` key survived
normalization, derive one from the normalized entries and store `str` of it. -/
def dbOut (entries : List (String × JVal)) (fallback : Option String) : Record :=
  if (alGet (normOut entries) "name").isSome then normOut entries
  else
    match nameChain (normOut entries) fallback with
    | some nm => alSet (normOut entries) "name" (.jstr (pyStr nm))
    | none => normOut entries

/-- Model of `norm_one` (db_editor.py:58-72). -/
def norm_one (rec : JVal) (fallback : Option String) : Option Record :=
  match rec with
  | .jobj entries =>
    if pyTruthyOpt (alGet (dbOut entries fallback) "name") then some (dbOut entries fallback)
    else none
  | .jstr s => some [("name", .jstr s)]
  | _ => none

/-- Name value selected by `_normalize_record` (linkStart.py:57-59): the raw
`name` value when truthy, else the derivation chain over the raw dictionary. -/
def linkName (entries : List (String × JVal)) (fallback : Option String) : Option JVal :=
  match alGet entries "name" with
  | some v => if pyTruthy v then some v else nameChain entries fallback
  | none => nameChain entries fallback

/-- Output dictionary of `_normalize_record` for a mapping input
(linkStart.py:61-69): normalized entries, with the selected name stored only
when it exists and the normalized output lacks a `name` key. -/
def linkOut (entries : List (String × JVal)) (fallback : Option String) : Record :=
  match linkName entries fallback with
  | some nm =>
    if (alGet (normOut entries) "name").isSome then normOut entries
    else alSet (normOut entries) "name" (.jstr (pyStr nm))
  | none => normOut entries

/-- Model of `_normalize_record` (linkStart.py:47-70).  Unlike `norm_one`, the
derived name is looked up on the raw (untrimmed) dictionary, is computed even
when a (falsy) `name` key exists, and is only stored when the normalized output
lacks a `name` key. -/
def normalize_record (rec : JVal) (fallback : Option String) : Option Record :=
  match rec with
  | .jstr s => some [("name", .jstr s)]
  | .jobj entries =>
    if pyTruthyOpt (alGet (linkOut entries fallback) "name") then some (linkOut entries fallback)
    else none
  | _ => none

/-- Shape dispatch shared by `read_json_list` (db_editor.py:92-112) and
`read_json_records` (linkStart.py:104-128) on a successfully parsed document,
parameterised by the per-record normalizer (the two loops are line-for-line
identical up to the normalizer used). -/
def dispatchTable (normf : JVal → Option String → Option Record)
    (entries : List (String × JVal)) : List Record :=
  entries.filterMap (fun kv =>
    match kv.2 with
    | .jobj o => normf (.jobj o) (some kv.1)
    | v => normf (.jobj [("name", .jstr kv.1), ("value", v)]) none)

/-- Top-level mapping branch of the shape dispatch: an `items` list when
present, otherwise the name-to-detail table reading. -/
def dispatchObj (normf : JVal → Option String → Option Record)
    (entries : List (String × JVal)) : List Record :=
  match alGet entries "items" with
  | some (.jarr items) => items.filterMap (fun it => normf it none)
  | _ => dispatchTable normf entries

def dispatchDocument (normf : JVal → Option String → Option Record) : JVal → List Record
  | .jarr items => items.filterMap (fun it => normf it none)
  | .jobj entries => dispatchObj normf entries
  | _ => []

/-- Treatment of a single line in JSON-Lines mode: blank lines, lines that
fail to parse and lines that fail to normalize all yield nothing
(db_editor.py:79-89). -/
def jsonlStep (normf : JVal → Option String → Option Record)
    (parse : String → Option JVal) (line : String) : Option Record :=
  if pyStrip line = "" then none
  else
    match parse (pyStrip line) with
    | none => none
    | some obj => normf obj none

/-- JSON-Lines fallback loop shared by db_editor.py:78-90 and
linkStart.py:90-102: strip each line, skip blank lines, parse each line
independently, normalize, skip lines that fail to parse or normalize, append
survivors in order. -/
def jsonlGo (normf : JVal → Option String → Option Record) (parse : String → Option JVal)
    (acc : List Record) : List String → List Record
  | [] => acc
  | line :: rest =>
    if pyStrip line = "" then jsonlGo normf parse acc rest
    else
      match parse (pyStrip line) with
      | none => jsonlGo normf parse acc rest
      | some obj =>
        match normf obj none with
        | some x => jsonlGo normf parse (acc ++ [x]) rest
        | none => jsonlGo normf parse acc rest

/-- Model of `read_json_list` (db_editor.py:50-112) applied to a text that was
successfully read: strict parse plus shape dispatch, or the JSON-Lines
fallback on parse failure. -/
def read_json_list (parse : String → Option JVal) (text : String) : List Record :=
  match parse text with
  | some data => dispatchDocument norm_one data
  | none => jsonlGo norm_one parse [] (splitLines text)

/-- Records produced by `read_json_records` (linkStart.py:72-128) before its
final dedup step (the JSON-Lines branch of the source returns these directly). -/
def read_json_records_raw (parse : String → Option JVal) (text : String) : List Record :=
  match parse text with
  | some data => dispatchDocument normalize_record data
  | none => jsonlGo normalize_record parse [] (splitLines text)

/-- Trimmed name of a record: `str(r.get("name", "")).strip()` as used by the
dedup loops, `rebuild_index` and `import_csv`. -/
def recName (r : Record) : String := pyStrip (pyStr ((alGet r "name").getD (.jstr "")))

/-- Dedup-by-name loop shared by `TabEditor.apply_records` (db_editor.py:244-257)
and the tail of `read_json_records` (linkStart.py:130-141): drop records whose
trimmed name is empty, keep the first record per trimmed name, preserve order.
`seen` models the Python `set`. -/
def dedupGo (seen : List String) : List Record → List Record
  | [] => []
  | r :: rs =>
    let nm := recName r
    if nm = "" then dedupGo seen rs
    else if nm ∈ seen then dedupGo seen rs
    else r :: dedupGo (nm :: seen) rs

/-- Consumer-side deduplication, starting from an empty `seen` set. -/
def dedupRecords (rs : List Record) : List Record := dedupGo [] rs

/-- Model of `read_json_records` (linkStart.py:72-141), dedup included.  In the
source the JSON-Lines branch returns before the dedup loop runs. -/
def read_json_records (parse : String → Option JVal) (text : String) : List Record :=
  match parse text with
  | some data => dedupRecords (dispatchDocument normalize_record data)
  | none => jsonlGo normalize_record parse [] (splitLines text)

/-- Model of `write_json_list` (db_editor.py:114-117): the JSON document that
`json.dump(records, ...)` serializes (each record a flat mapping, list order
kept).  Reparsing the written file yields this very document. -/
def write_json_list (records : List Record) : JVal := .jarr (records.map .jobj)

/-- Cell cleaning applied while reading CSV rows: `(c or "").strip()`
(db_editor.py:136; cells are never `None` in the model). -/
def cleanCell (c : String) : String := pyStrip c

/-- Header cleaning `h.lstrip("﻿").strip()` (db_editor.py:143). -/
def cleanHeader (h : String) : String := pyStrip ⟨h.data.dropWhile (· = '﻿')⟩

/-- Builds one row dictionary from headers and cells (db_editor.py:149-153):
empty header names are skipped, missing cells default to the empty string,
cells beyond the header count are dropped. -/
def buildRow (headers : List String) (r : List String) : List (String × String) :=
  (headers.enum).foldl
    (fun d ik => if ik.2 = "" then d else alSet d ik.2 (r.getD ik.1 ""))
    []

/-- Data-row phase of `read_csv_rows` (db_editor.py:145-154): skip rows whose
cells are all blank, turn the rest into header-keyed dictionaries. -/
def buildDataRows (headers : List String) (rows : List (List String)) : List (List (String × String)) :=
  rows.filterMap (fun r =>
    if r.any (fun c => pyStrip c ≠ "") then some (buildRow headers r) else none)

/-- Model of `read_csv_rows` (db_editor.py:119-155) applied to the cell matrix
produced by the `csv.reader` loop (delimiter sniffing and decoding are external
library behaviour).  The second row is skipped as a description row exactly
when it contains a non-blank cell. -/
def read_csv_rows (raw : List (List String)) : List (List (String × String)) :=
  match raw.map (fun r => r.map cleanCell) with
  | [] => []
  | r0 :: rest =>
    buildDataRows (r0.map cleanHeader)
      (match rest with
       | [] => []
       | r1 :: rest2 => if r1.any (fun c => pyStrip c ≠ "") then rest2 else r1 :: rest2)

/-- Model of `TabEditor.rebuild_index` (db_editor.py:259-264): map each
non-empty trimmed name to the position of its first occurrence. -/
def rebuildIndexGo : List Record → Nat → List (String × Nat) → List (String × Nat)
  | [], _, acc => acc
  | r :: rs, i, acc =>
    let nm := recName r
    rebuildIndexGo rs (i + 1)
      (if nm ≠ "" ∧ (alGet acc nm).isNone then acc ++ [(nm, i)] else acc)

/-- The editor's `self.index` as rebuilt from `self.records`. -/
def rebuildIndex (rs : List Record) : List (String × Nat) := rebuildIndexGo rs 0 []

/-- Position of the first record with the given trimmed name (specification
face of `rebuildIndex`, proved equivalent below). -/
def firstIdxName : List Record → String → Option Nat
  | [], _ => none
  | r :: rs, nm => if recName r = nm then some 0 else (firstIdxName rs nm).map (· + 1)

/-- Fresh-suffix search loop: the `while new_nm in self.index` loops of
`TabEditor.dup_item` (db_editor.py:342-345) and `TabEditor.import_csv`
(db_editor.py:466-468), searching upward from a start value until the rendered
candidate is free.  Fuel-based; fuel `|used| + 1` always suffices (proved
below). -/
def freshGo (used : List String) (f : Nat → String) : Nat → Nat → Nat
  | i, 0 => i
  | i, fuel + 1 => if f i ∈ used then freshGo used f (i + 1) fuel else i

/-- Candidate name `f"{base} ({i})"` used by the rename merge policy. -/
def candRename (base : String) (i : Nat) : String := base ++ " (" ++ natStr i ++ ")"

/-- Candidate name `"{base} (复制{i})"` used by `dup_item`. -/
def candDup (base : String) (i : Nat) : String := base ++ " (复制" ++ natStr i ++ ")"

/-- Keys currently present in the editor's index. -/
def indexKeys (rs : List Record) : List String := (rebuildIndex rs).map Prod.fst

/-- Model of `TabEditor.add_item` (db_editor.py:320-334).  `fieldDefaults`
carries, per schema field key, the default value the form code inserts
(`f.get("default","")`, or `""` for text fields); rejection paths (empty name,
existing name) leave the record list unchanged. -/
def addItem (fieldDefaults : List (String × JVal)) (rs : List Record) (name : String) : List Record :=
  if name = "" then rs
  else if pyStrip name = "" then rs
  else if (alGet (rebuildIndex rs) (pyStrip name)).isSome then rs
  else
    rs ++ [fieldDefaults.foldl
      (fun out kd => if (alGet out kd.1).isSome then out else alSet out kd.1 kd.2)
      [("name", .jstr (pyStrip name))]]

/-- Model of `TabEditor.dup_item` (db_editor.py:336-350) for a selected name
`old`: copy the first record of that name under the first free
`"{old} (复制{i})"` name, `i ≥ 2`. -/
def dupItem (rs : List Record) (old : String) : List Record :=
  match alGet (rebuildIndex rs) old with
  | none => rs
  | some i =>
    rs ++ [alSet (rs.getD i []) "name"
      (.jstr (candDup old (freshGo (indexKeys rs) (candDup old) 2 ((indexKeys rs).length + 1))))]

/-- Model of `TabEditor.del_item` (db_editor.py:352-362) after confirmation. -/
def delItem (rs : List Record) (nm : String) : List Record :=
  match alGet (rebuildIndex rs) nm with
  | none => rs
  | some i => rs.eraseIdx i

/-- Model of `TabEditor.save_current_item` (db_editor.py:364-387): `old` is the
selected name, `rec` the record collected from the form, `requiredKeys` the
keys of schema fields marked required.  Every rejection path (missing required
field, blank name, clash with a different existing name) leaves the list
unchanged. -/
def saveCurrentItem (rs : List Record) (old : String) (rec : Record) (requiredKeys : List String) : List Record :=
  match alGet (rebuildIndex rs) old with
  | none => rs
  | some i =>
    if requiredKeys.any (fun k => pyStrip (pyStr ((alGet rec k).getD (.jstr ""))) = "") then rs
    else if pyStrip (pyStr ((alGet rec "name").getD (.jstr ""))) = "" then rs
    else if pyStrip (pyStr ((alGet rec "name").getD (.jstr ""))) ≠ old
        ∧ (alGet (rebuildIndex rs) (pyStrip (pyStr ((alGet rec "name").getD (.jstr ""))))).isSome then rs
    else rs.set i rec

/-- Merge policies of `TabEditor.import_csv` (db_editor.py:477-485). -/
inductive Policy where
  | overwrite
  | skip
  | rename

/-- Counters reported by `TabEditor.import_csv`. -/
structure Counts where
  added : Nat
  updated : Nat
  skipped : Nat
  renamed : Nat

/-- Candidate record built for one CSV row (db_editor.py:458-459):
`{k: r.get(k, "") for k in field_keys}` then `rec["name"] = nm`. -/
def buildCsvRec (fieldKeys : List String) (row : List (String × String)) (nm : String) : Record :=
  alSet (fieldKeys.foldl (fun d k => alSet d k (.jstr ((alGet row k).getD ""))) []) "name" (.jstr nm)

/-- One iteration of the `import_csv` merge loop (db_editor.py:455-472).  The
source rebuilds `self.index` at the end of every iteration, so each iteration
sees the index of the current record list. -/
def csvImportStep (pol : Policy) (nameCol : String) (fieldKeys : List String)
    (st : List Record × Counts) (row : List (String × String)) : List Record × Counts :=
  if pyStrip ((alGet row nameCol).getD "") = "" then st
  else
    match alGet (rebuildIndex st.1) (pyStrip ((alGet row nameCol).getD "")) with
    | some i =>
      match pol with
      | .skip => (st.1, Counts.mk st.2.added st.2.updated (st.2.skipped + 1) st.2.renamed)
      | .overwrite =>
        (st.1.set i (buildCsvRec fieldKeys row (pyStrip ((alGet row nameCol).getD ""))),
         Counts.mk st.2.added (st.2.updated + 1) st.2.skipped st.2.renamed)
      | .rename =>
        (st.1 ++ [alSet (buildCsvRec fieldKeys row (pyStrip ((alGet row nameCol).getD ""))) "name"
            (.jstr (candRename (pyStrip ((alGet row nameCol).getD ""))
              (freshGo (indexKeys st.1) (candRename (pyStrip ((alGet row nameCol).getD ""))) 2
                ((indexKeys st.1).length + 1))))],
         Counts.mk st.2.added st.2.updated st.2.skipped (st.2.renamed + 1))
    | none =>
      (st.1 ++ [buildCsvRec fieldKeys row (pyStrip ((alGet row nameCol).getD ""))],
       Counts.mk (st.2.added + 1) st.2.updated st.2.skipped st.2.renamed)

/-- Model of the merge loop of `TabEditor.import_csv` (db_editor.py:453-472)
over all parsed CSV rows. -/
def csvImport (pol : Policy) (nameCol : String) (fieldKeys : List String)
    (records : List Record) (rows : List (List (String × String))) : List Record × Counts :=
  rows.foldl (csvImportStep pol nameCol fieldKeys) (records, Counts.mk 0 0 0 0)

/-- Value of a digit character. -/
def charVal (c : Char) : Nat := c.toNat - 48

/-- Value of a digit string (most significant first). -/
def digitsVal (l : List Char) : Nat := l.foldl (fun a c => a * 10 + charVal c) 0

/-- Declarative description of the entry-copy loop of the normalizers: the
source entries with non-empty trimmed keys, keys trimmed, nulls blanked. -/
def entsOf (m : List (String × JVal)) : Record :=
  (m.filter (fun kv => pyStrip kv.1 ≠ "")).map (fun kv => (pyStrip kv.1, nullToEmpty kv.2))

/-- Trimmed non-empty keys of a raw mapping, in order (the keys of `entsOf`). -/
def trimmedKeys (m : List (String × JVal)) : List String :=
  (m.filter (fun kv => pyStrip kv.1 ≠ "")).map (fun kv => pyStrip kv.1)

/-- Specification-side dedup (spec.md §4.2 "Deduplication"): keep the first
record per distinct trimmed name, drop every later record with the same
trimmed name, preserve encounter order.  Records whose trimmed name is empty
are dropped (this clause is the amendment to claim C4). -/
def keepFirstByName : List Record → List Record
  | [] => []
  | r :: rs =>
    if recName r = "" then keepFirstByName rs
    else r :: (keepFirstByName rs).filter (fun s => recName s ≠ recName r)

/-- Parser behaviour of `json.loads` on the three-line JSON-Lines example of
claim C5: each object line parses, the middle line and the whole text fail. -/
def parseDemoC5 : String → Option JVal := fun t =>
  if t = "\x7b\"name\":\"A\"\x7d" then some (.jobj [("name", .jstr "A")])
  else if t = "\x7b\"name\":\"B\"\x7d" then some (.jobj [("name", .jstr "B")])
  else none

/-- Parser behaviour of `json.loads` on `'[""]'`: a top-level list holding one
empty string (claim C1 counterexample). -/
def parseDemoC1 : String → Option JVal := fun t =>
  if t = "[\"\"]" then some (.jarr [.jstr ""]) else none

/-- Parser behaviour of `json.loads` on a one-object list (claim C1 witness). -/
def parseDemoC1W : String → Option JVal := fun t =>
  if t = "[\x7b\"name\":\"A\"\x7d]" then some (.jarr [.jobj [("name", .jstr "A")]]) else none

/-- Record described by claim C3 after name derivation: the trimmed source
entries, extended with a derived `name` entry appended at the end when no
`name` entry survived normalization and the derivation chain produced one. -/
def specNamed (m : List (String × JVal)) (fb : Option String) : Record :=
  if (alGet (entsOf m) "name").isSome then entsOf m
  else
    match nameChain (entsOf m) fb with
    | some nm => entsOf m ++ [("name", .jstr (pyStr nm))]
    | none => entsOf m

/-- Declarative form of claim C3's contract for flat mappings: exactly the
source entries with non-empty trimmed keys (keys stored trimmed, nulls
blanked), a name derived from the 名称 / title / fallback chain when absent,
and rejection when no truthy name results. -/
def normFlatSpec (m : List (String × JVal)) (fb : Option String) : Option Record :=
  if pyTruthyOpt (alGet (specNamed m fb) "name") then some (specNamed m fb) else none

/-- Mapping inputs whose keys are already trimmed and pairwise distinct (the
amendment's proviso for claim C10); any non-mapping input qualifies. -/
def tidyKeys : JVal → Prop
  | .jobj m => (∀ kv ∈ m, pyStrip kv.1 = kv.1) ∧ (m.map Prod.fst).Nodup
  | _ => True

/-- True for JSON values that are not containers (flat-mapping values). -/
def isPrimitive : JVal → Bool
  | .jarr _ => false
  | .jobj _ => false
  | _ => true

/-- True exactly for JSON `null`. -/
def isNullB : JVal → Bool
  | .jnull => true
  | _ => false

/-- True when the record's `name` entry holds a non-empty string. -/
def nameIsNonemptyStr (r : Record) : Bool :=
  match alGet r "name" with
  | some (.jstr s) => s ≠ ""
  | _ => false

/-- Canonical on-disk record form of claim C8: a flat mapping with pairwise
distinct, non-empty, already-trimmed keys, no null values, and a non-empty
string `name`. -/
def canonicalRecord (r : Record) : Prop :=
  (r.map Prod.fst).Nodup
  ∧ (∀ kv ∈ r, kv.1 ≠ "" ∧ pyStrip kv.1 = kv.1 ∧ isNullB kv.2 = false ∧ isPrimitive kv.2 = true)
  ∧ nameIsNonemptyStr r = true

/-- Parser behaviour of `json.loads` on the file written for the C8 witness:
rereading the saved file yields exactly the serialized document. -/
def parseDemoC8 : String → Option JVal := fun t =>
  if t = "races.json" then
    some (write_json_list [[("name", .jstr "A"), ("desc", .jstr "d")]])
  else none

/-- Invariant maintained by the editor over `self.records`: every record has a
non-empty trimmed name, and the trimmed names are pairwise distinct. -/
def namesOk (rs : List Record) : Prop :=
  (∀ r ∈ rs, recName r ≠ "") ∧ (rs.map recName).Nodup

/-! ## Lemmas and claim theorems -/

theorem alGet_append {α : Type} (a b : List (String × α)) (k : String) :
    alGet (a ++ b) k = (alGet a k).or (alGet b k) := by
  induction a with
  | nil => simp [alGet]
  | cons kv rest ih => by_cases h : kv.1 = k <;> simp [alGet, h, ih]

theorem alGet_mapReplace {α : Type} (d : List (String × α)) (k k' : String) (v : α) :
    alGet (d.map (fun kv => if kv.1 = k then (k, v) else kv)) k'
      = if k' = k then (alGet d k).map (fun _ => v) else alGet d k' := by
  induction d with
  | nil => by_cases h : k' = k <;> simp [alGet, h]
  | cons kv rest ih =>
    by_cases h1 : kv.1 = k
    · by_cases h2 : k' = k
      · subst h2
        simp [alGet, h1]
      · have hk2 : ¬k = k' := fun hh => h2 hh.symm
        simp [alGet, h1, h2, hk2, ih]
    · by_cases h3 : kv.1 = k'
      · have hk : ¬k' = k := fun hh => h1 (h3.trans hh)
        simp [alGet, h1, h3, hk]
      · simp [alGet, h1, h3, ih]

theorem alGet_alSet_self {α : Type} (d : List (String × α)) (k : String) (v : α) :
    alGet (alSet d k v) k = some v := by
  unfold alSet
  by_cases hs : (alGet d k).isSome
  · obtain ⟨w, hw⟩ := Option.isSome_iff_exists.mp hs
    simp [hs, alGet_mapReplace, hw]
  · have hn : alGet d k = none := Option.not_isSome_iff_eq_none.mp hs
    simp [hs, alGet_append, hn, alGet, Option.or]

theorem alGet_alSet_ne {α : Type} (d : List (String × α)) (k k' : String) (v : α)
    (h : k' ≠ k) : alGet (alSet d k v) k' = alGet d k' := by
  unfold alSet
  by_cases hs : (alGet d k).isSome
  · simp [hs, alGet_mapReplace, h]
  · have hk2 : ¬k = k' := fun hh => h hh.symm
    have h2 : alGet ([(k, v)] : List (String × α)) k' = none := by
      simp [alGet, hk2]
    rw [if_neg hs, alGet_append, h2]
    cases alGet d k' <;> simp [Option.or]

theorem alSet_of_absent {α : Type} (d : List (String × α)) (k : String) (v : α)
    (h : alGet d k = none) : alSet d k v = d ++ [(k, v)] := by
  unfold alSet
  simp [h]

theorem alGet_eq_none_of_not_mem_keys {α : Type} (d : List (String × α)) (k : String)
    (h : k ∉ d.map Prod.fst) : alGet d k = none := by
  induction d with
  | nil => rfl
  | cons kv rest ih =>
    simp only [List.map_cons, List.mem_cons, not_or] at h
    have h1 : ¬kv.1 = k := fun hh => h.1 hh.symm
    simp [alGet, h1, ih h.2]

theorem alGet_isSome_iff_mem_keys {α : Type} (d : List (String × α)) (k : String) :
    (alGet d k).isSome = true ↔ k ∈ d.map Prod.fst := by
  induction d with
  | nil => simp [alGet]
  | cons kv rest ih =>
    by_cases h : kv.1 = k
    · simp [alGet, h]
    · simp only [alGet, if_neg h, List.map_cons, List.mem_cons, ih]
      constructor
      · exact Or.inr
      · rintro (hh | hh)
        · exact absurd hh.symm h
        · exact hh

theorem stripChars_eq_rdrop (l : List Char) :
    stripChars l = List.rdropWhile isPyWS (l.dropWhile isPyWS) := rfl

theorem first_not_ws_of_append (m t a : List Char) (ht : m ++ t = a)
    (ha : ∀ hl : 0 < a.length, ¬isPyWS (a.get ⟨0, hl⟩) = true) :
    ∀ hm : 0 < m.length, ¬isPyWS (m.get ⟨0, hm⟩) = true := by
  intro hm
  cases m with
  | nil => simp at hm
  | cons c cs =>
    subst ht
    exact ha (by simp)

theorem stripChars_idem (l : List Char) : stripChars (stripChars l) = stripChars l := by
  rw [stripChars_eq_rdrop, stripChars_eq_rdrop]
  have hdw : List.dropWhile isPyWS (List.rdropWhile isPyWS (l.dropWhile isPyWS))
      = List.rdropWhile isPyWS (l.dropWhile isPyWS) := by
    rw [List.dropWhile_eq_self_iff]
    obtain ⟨t, ht⟩ := List.rdropWhile_prefix isPyWS (l := l.dropWhile isPyWS)
    have ha2 : ∀ hl : 0 < (l.dropWhile isPyWS).length,
        ¬isPyWS ((l.dropWhile isPyWS).get ⟨0, hl⟩) = true := by
      have h3 := List.dropWhile_idempotent isPyWS l
      rwa [List.dropWhile_eq_self_iff] at h3
    exact first_not_ws_of_append _ t _ ht ha2
  rw [hdw, List.rdropWhile_idempotent]

theorem pyStrip_idem (s : String) : pyStrip (pyStrip s) = pyStrip s := by
  unfold pyStrip
  exact congrArg String.mk (stripChars_idem s.data)

theorem stripChars_eq_self (l : List Char)
    (h1 : ∀ hl : 0 < l.length, isPyWS (l.get ⟨0, hl⟩) = false)
    (h2 : ∀ hl : l ≠ [], isPyWS (l.getLast hl) = false) : stripChars l = l := by
  rw [stripChars_eq_rdrop]
  have hd : l.dropWhile isPyWS = l := by
    rw [List.dropWhile_eq_self_iff]
    intro hl
    rw [h1 hl]
    simp
  rw [hd, List.rdropWhile_eq_self_iff]
  intro hl
  rw [h2 hl]
  simp

theorem charVal_digitChar (d : Nat) (hd : d < 10) : charVal (Nat.digitChar d) = d := by
  interval_cases d <;> rfl

theorem digitsVal_go (init : Nat) (l : List Char) :
    l.foldl (fun a c => a * 10 + charVal c) init
      = init * 10 ^ l.length + digitsVal l := by
  induction l generalizing init with
  | nil => simp [digitsVal]
  | cons c cs ih =>
    have h2 : digitsVal (c :: cs) = charVal c * 10 ^ cs.length + digitsVal cs := by
      show List.foldl (fun a c => a * 10 + charVal c) 0 (c :: cs) = _
      rw [List.foldl_cons, ih]
      ring
    rw [List.foldl_cons, ih, List.length_cons, h2]
    ring

theorem digitsVal_append_singleton (xs : List Char) (c : Char) :
    digitsVal (xs ++ [c]) = 10 * digitsVal xs + charVal c := by
  unfold digitsVal
  rw [List.foldl_append]
  simp [List.foldl_cons]
  ring

theorem natStrGo_val (fuel : Nat) : ∀ n, n < 10 ^ fuel → digitsVal (natStrGo fuel n) = n := by
  induction fuel with
  | zero =>
    intro n hn
    simp at hn
    simp [natStrGo, hn, digitsVal]
  | succ fuel ih =>
    intro n hn
    by_cases h : n < 10
    · simp [natStrGo, h, digitsVal, charVal_digitChar n h]
    · rw [natStrGo, if_neg h, digitsVal_append_singleton,
        ih (n / 10) (by rw [Nat.div_lt_iff_lt_mul (by norm_num)]; rw [pow_succ] at hn; exact hn),
        charVal_digitChar (n % 10) (Nat.mod_lt n (by norm_num))]
      omega

theorem self_lt_ten_pow_succ (n : Nat) : n < 10 ^ (n + 1) := by
  calc n < 10 ^ n := Nat.lt_pow_self (by norm_num) n
    _ ≤ 10 ^ (n + 1) := Nat.pow_le_pow_right (by norm_num) (Nat.le_succ n)

theorem natStrGo_inj (m n : Nat) (h : natStrGo (m + 1) m = natStrGo (n + 1) n) : m = n := by
  have hm := natStrGo_val (m + 1) m (self_lt_ten_pow_succ m)
  have hn := natStrGo_val (n + 1) n (self_lt_ten_pow_succ n)
  rw [← hm, ← hn, h]

theorem natStr_inj (m n : Nat) (h : natStr m = natStr n) : m = n := by
  unfold natStr at h
  exact natStrGo_inj m n (by injection h)

/-- Injectivity of the rendered candidate names `p ++ natStr i ++ s`. -/
theorem candAppend_inj (p s : String) (i j : Nat)
    (h : p ++ natStr i ++ s = p ++ natStr j ++ s) : i = j := by
  have hd := congrArg String.data h
  rw [String.data_append, String.data_append, String.data_append, String.data_append] at hd
  have h2 := List.append_cancel_right hd
  have h3 := List.append_cancel_left h2
  exact natStr_inj i j (String.ext h3)

theorem candRename_inj (base : String) (i j : Nat) (h : candRename base i = candRename base j) :
    i = j := by
  unfold candRename at h
  exact candAppend_inj (base ++ " (") ")" i j (by
    rw [String.append_assoc, String.append_assoc] at h ⊢
    rw [← String.append_assoc, ← String.append_assoc] at h ⊢
    exact h)

theorem candDup_inj (base : String) (i j : Nat) (h : candDup base i = candDup base j) :
    i = j := by
  unfold candDup at h
  exact candAppend_inj (base ++ " (复制") ")" i j (by
    rw [String.append_assoc, String.append_assoc] at h ⊢
    rw [← String.append_assoc, ← String.append_assoc] at h ⊢
    exact h)

theorem freshGo_spec (used : List String) (f : Nat → String) :
    ∀ fuel start, (∃ j, start ≤ j ∧ j < start + fuel ∧ f j ∉ used) →
      start ≤ freshGo used f start fuel
      ∧ f (freshGo used f start fuel) ∉ used
      ∧ ∀ j, start ≤ j → j < freshGo used f start fuel → f j ∈ used := by
  intro fuel
  induction fuel with
  | zero =>
    intro start hex
    obtain ⟨j, h1, h2, _⟩ := hex
    omega
  | succ fuel ih =>
    intro start hex
    by_cases h : f start ∈ used
    · have hex2 : ∃ j, start + 1 ≤ j ∧ j < start + 1 + fuel ∧ f j ∉ used := by
        obtain ⟨j, h1, h2, h3⟩ := hex
        refine ⟨j, ?_, by omega, h3⟩
        rcases Nat.eq_or_lt_of_le h1 with heq | hlt
        · exact absurd h (heq ▸ h3)
        · omega
      obtain ⟨ha, hb, hc⟩ := ih (start + 1) hex2
      have hstep : freshGo used f start (fuel + 1) = freshGo used f (start + 1) fuel := by
        simp [freshGo, h]
      refine ⟨by omega, hstep ▸ hb, ?_⟩
      intro j hj1 hj2
      rcases Nat.eq_or_lt_of_le hj1 with heq | hlt
      · exact heq ▸ h
      · exact hc j hlt (hstep ▸ hj2)
    · have hstep : freshGo used f start (fuel + 1) = start := by
        simp [freshGo, h]
      rw [hstep]
      exact ⟨le_refl start, h, fun j h1 h2 => absurd (lt_of_le_of_lt h1 h2) (lt_irrefl start)⟩

theorem exists_fresh (used : List String) (f : Nat → String)
    (hf : ∀ i j, f i = f j → i = j) (start : Nat) :
    ∃ j, start ≤ j ∧ j < start + (used.length + 1) ∧ f j ∉ used := by
  by_contra hcon
  push_neg at hcon
  have hsub : (Finset.range (used.length + 1)).image (fun k => f (start + k)) ⊆ used.toFinset := by
    intro x hx
    simp only [Finset.mem_image, Finset.mem_range] at hx
    obtain ⟨k, hk, hfk⟩ := hx
    rw [List.mem_toFinset, ← hfk]
    exact hcon (start + k) (by omega) (by omega)
  have hcard := Finset.card_le_card hsub
  rw [Finset.card_image_of_injective _
      (fun a b hab => by have := hf (start + a) (start + b) hab; omega),
    Finset.card_range] at hcard
  have := used.toFinset_card_le
  omega

theorem freshGo_least (used : List String) (f : Nat → String)
    (hf : ∀ i j, f i = f j → i = j) (start : Nat) :
    start ≤ freshGo used f start (used.length + 1)
    ∧ f (freshGo used f start (used.length + 1)) ∉ used
    ∧ ∀ j, start ≤ j → j < freshGo used f start (used.length + 1) → f j ∈ used :=
  freshGo_spec used f (used.length + 1) start (exists_fresh used f hf start)

theorem firstIdxName_eq_none_iff (rs : List Record) (nm : String) :
    firstIdxName rs nm = none ↔ ∀ r ∈ rs, recName r ≠ nm := by
  induction rs with
  | nil => simp [firstIdxName]
  | cons r rs ih =>
    by_cases h : recName r = nm
    · simp [firstIdxName, h]
    · simp [firstIdxName, h, ih]

theorem firstIdxName_some_facts (rs : List Record) (nm : String) :
    ∀ i, firstIdxName rs nm = some i →
      i < rs.length
      ∧ (rs.map recName)[i]? = some nm
      ∧ ∀ j, j < i → (rs.map recName)[j]? ≠ some nm := by
  induction rs with
  | nil => intro i h; simp [firstIdxName] at h
  | cons r rs ih =>
    intro i h
    by_cases hr : recName r = nm
    · simp only [firstIdxName, hr, if_true, Option.some.injEq] at h
      subst h
      exact ⟨by simp, by simp [hr], fun j hj => by omega⟩
    · simp only [firstIdxName, hr, if_false, Option.map_eq_some'] at h
      obtain ⟨i0, hi0, hadd⟩ := h
      obtain ⟨hlen, hget, hmin⟩ := ih i0 hi0
      subst hadd
      refine ⟨by simp; omega, by simpa using hget, ?_⟩
      intro j hj
      cases j with
      | zero => simpa using hr
      | succ j0 =>
        have := hmin j0 (by omega)
        simpa using this
theorem firstIdxName_cons_self (r : Record) (rs : List Record) (nm : String)
    (h : recName r = nm) : firstIdxName (r :: rs) nm = some 0 := by
  simp [firstIdxName, h]

theorem firstIdxName_cons_ne (r : Record) (rs : List Record) (nm : String)
    (h : ¬recName r = nm) : firstIdxName (r :: rs) nm = (firstIdxName rs nm).map (· + 1) := by
  simp [firstIdxName, h]

theorem rebuildIndexGo_get (rs : List Record) :
    ∀ (i : Nat) (acc : List (String × Nat)) (nm : String),
      alGet (rebuildIndexGo rs i acc) nm
        = (alGet acc nm).or (if nm = "" then none else (firstIdxName rs nm).map (· + i)) := by
  induction rs with
  | nil =>
    intro i acc nm
    by_cases h : nm = "" <;> simp [rebuildIndexGo, firstIdxName, h, Option.or_none]
  | cons r rs ih =>
    intro i acc nm
    have hcomp : ∀ o : Option Nat, (o.map (· + 1)).map (· + i) = o.map (· + (i + 1)) := by
      intro o
      cases o with
      | none => rfl
      | some x =>
        show some (x + 1 + i) = some (x + (i + 1))
        congr 1
        omega
    show alGet (rebuildIndexGo rs (i + 1)
        (if recName r ≠ "" ∧ (alGet acc (recName r)).isNone then acc ++ [(recName r, i)] else acc)) nm = _
    rw [ih]
    by_cases hcond : recName r ≠ "" ∧ (alGet acc (recName r)).isNone = true
    · rw [if_pos hcond, alGet_append]
      by_cases hm : recName r = nm
      · have haccnone : alGet acc nm = none := by
          rw [← hm]
          exact Option.isNone_iff_eq_none.mp hcond.2
        have hone : alGet [(recName r, i)] nm = some i := by simp [alGet, hm]
        have hnm : ¬nm = "" := hm ▸ hcond.1
        rw [haccnone, hone, Option.none_or, Option.none_or, if_neg hnm,
          firstIdxName_cons_self r rs nm hm]
        simp [hnm]
      · have hone : alGet [(recName r, i)] nm = none := by simp [alGet, hm]
        rw [hone, Option.or_none, firstIdxName_cons_ne r rs nm hm]
        by_cases hnm : nm = ""
        · simp [hnm]
        · rw [if_neg hnm, if_neg hnm, hcomp]
    · rw [if_neg hcond]
      by_cases hm : recName r = nm
      · rcases not_and_or.mp hcond with hr0 | hracc
        · have hnm : nm = "" := by rw [← hm]; exact not_not.mp hr0
          simp [hnm]
        · have hsome : ∃ w, alGet acc nm = some w := by
            rw [← hm]
            cases hg : alGet acc (recName r)
            · rw [hg] at hracc; simp at hracc
            · exact ⟨_, rfl⟩
          obtain ⟨w, hw⟩ := hsome
          simp [hw, Option.or]
      · rw [firstIdxName_cons_ne r rs nm hm]
        by_cases hnm : nm = ""
        · simp [hnm]
        · rw [if_neg hnm, if_neg hnm, hcomp]

theorem indexGet_eq (rs : List Record) (nm : String) :
    alGet (rebuildIndex rs) nm = if nm = "" then none else firstIdxName rs nm := by
  rw [rebuildIndex, rebuildIndexGo_get]
  simp only [alGet, Option.none_or]
  by_cases h : nm = ""
  · simp [h]
  · rw [if_neg h, if_neg h]
    cases firstIdxName rs nm <;> simp

theorem indexGet_isSome_iff (rs : List Record) (nm : String) :
    (alGet (rebuildIndex rs) nm).isSome = true ↔ nm ≠ "" ∧ nm ∈ rs.map recName := by
  rw [indexGet_eq]
  by_cases h : nm = ""
  · simp [h]
  · rw [if_neg h]
    constructor
    · intro hs
      refine ⟨h, ?_⟩
      obtain ⟨i, hi⟩ := Option.isSome_iff_exists.mp hs
      obtain ⟨hlen, hget, _⟩ := firstIdxName_some_facts rs nm i hi
      obtain ⟨hlt, hel⟩ := List.getElem?_eq_some_iff.mp hget
      exact hel ▸ List.getElem_mem hlt
    · rintro ⟨-, hmem⟩
      cases hf : firstIdxName rs nm
      · rw [firstIdxName_eq_none_iff] at hf
        obtain ⟨r, hr, hrn⟩ := List.mem_map.mp hmem
        exact absurd hrn (hf r hr)
      · simp

theorem indexKeys_mem_iff (rs : List Record) (nm : String) :
    nm ∈ indexKeys rs ↔ nm ≠ "" ∧ nm ∈ rs.map recName := by
  rw [indexKeys, ← alGet_isSome_iff_mem_keys, indexGet_isSome_iff]

theorem entsOf_cons_blank (kv : String × JVal) (m : List (String × JVal))
    (h : pyStrip kv.1 = "") : entsOf (kv :: m) = entsOf m := by
  simp [entsOf, h]

theorem entsOf_cons_keep (kv : String × JVal) (m : List (String × JVal))
    (h : ¬pyStrip kv.1 = "") :
    entsOf (kv :: m) = (pyStrip kv.1, nullToEmpty kv.2) :: entsOf m := by
  simp [entsOf, h]

theorem trimmedKeys_cons_blank (kv : String × JVal) (m : List (String × JVal))
    (h : pyStrip kv.1 = "") : trimmedKeys (kv :: m) = trimmedKeys m := by
  simp [trimmedKeys, h]

theorem trimmedKeys_cons_keep (kv : String × JVal) (m : List (String × JVal))
    (h : ¬pyStrip kv.1 = "") : trimmedKeys (kv :: m) = pyStrip kv.1 :: trimmedKeys m := by
  simp [trimmedKeys, h]

theorem entsOf_keys (m : List (String × JVal)) : (entsOf m).map Prod.fst = trimmedKeys m := by
  induction m with
  | nil => rfl
  | cons kv m ih =>
    by_cases h : pyStrip kv.1 = ""
    · rw [entsOf_cons_blank kv m h, trimmedKeys_cons_blank kv m h, ih]
    · rw [entsOf_cons_keep kv m h, trimmedKeys_cons_keep kv m h, List.map_cons, ih]

theorem normOut_go_eq (m : List (String × JVal)) :
    ∀ acc : Record, (trimmedKeys m).Nodup →
      (∀ kv ∈ m, pyStrip kv.1 ≠ "" → alGet acc (pyStrip kv.1) = none) →
      m.foldl
        (fun out kv =>
          let kk := pyStrip kv.1
          if kk = "" then out else alSet out kk (nullToEmpty kv.2)) acc
        = acc ++ entsOf m := by
  induction m with
  | nil =>
    intro acc _ _
    simp [entsOf]
  | cons kv m ih =>
    intro acc hnd hdisj
    by_cases h : pyStrip kv.1 = ""
    · rw [List.foldl_cons]
      simp only [h, if_pos rfl]
      rw [entsOf_cons_blank kv m h]
      refine ih acc ?_ ?_
      · rwa [trimmedKeys_cons_blank kv m h] at hnd
      · exact fun kv2 h2 => hdisj kv2 (List.mem_cons_of_mem kv h2)
    · rw [trimmedKeys_cons_keep kv m h] at hnd
      have hnd2 := hnd
      rw [List.nodup_cons] at hnd2
      have hacc : alGet acc (pyStrip kv.1) = none :=
        hdisj kv (List.mem_cons_self kv m) h
      have hdisj2 : ∀ kv2 ∈ m, pyStrip kv2.1 ≠ "" →
          alGet (acc ++ [(pyStrip kv.1, nullToEmpty kv.2)]) (pyStrip kv2.1) = none := by
        intro kv2 h2 hk2
        rw [alGet_append, hdisj kv2 (List.mem_cons_of_mem kv h2) hk2, Option.none_or]
        have hne : ¬pyStrip kv.1 = pyStrip kv2.1 := by
          intro hc
          apply hnd2.1
          rw [hc]
          exact List.mem_map_of_mem _ (List.mem_filter_of_mem h2 (by simpa using hk2))
        simp [alGet, hne]
      have step := ih (acc ++ [(pyStrip kv.1, nullToEmpty kv.2)]) hnd2.2 hdisj2
      rw [List.foldl_cons]
      show List.foldl _ (if pyStrip kv.1 = "" then acc else alSet acc (pyStrip kv.1) (nullToEmpty kv.2)) m = _
      rw [if_neg h, alSet_of_absent acc _ _ hacc, step, entsOf_cons_keep kv m h,
        List.append_assoc]
      rfl

theorem normOut_eq (m : List (String × JVal)) (hnd : (trimmedKeys m).Nodup) :
    normOut m = entsOf m := by
  have h := normOut_go_eq m [] hnd (fun kv _ _ => rfl)
  simpa [normOut] using h

theorem nodup_set_of_not_mem {α : Type} (l : List α) :
    ∀ (i : Nat) (a : α), l.Nodup → a ∉ l → (l.set i a).Nodup := by
  induction l with
  | nil => intro i a _ _; simp
  | cons b t ih =>
    intro i a hnd ha
    rw [List.nodup_cons] at hnd
    cases i with
    | zero =>
      rw [List.set_cons_zero, List.nodup_cons]
      exact ⟨fun hc => ha (List.mem_cons_of_mem b hc), hnd.2⟩
    | succ i0 =>
      rw [List.set_cons_succ, List.nodup_cons]
      refine ⟨?_, ih i0 a hnd.2 (fun hc => ha (List.mem_cons_of_mem b hc))⟩
      intro hc
      rcases List.mem_or_eq_of_mem_set hc with hmem | heq
      · exact hnd.1 hmem
      · exact ha (heq ▸ List.mem_cons_self b t)

theorem set_getElem_self {α : Type} (l : List α) :
    ∀ (i : Nat) (a : α), l[i]? = some a → l.set i a = l := by
  induction l with
  | nil => intro i a h; simp at h
  | cons b t ih =>
    intro i a h
    cases i with
    | zero =>
      simp only [List.getElem?_cons_zero, Option.some.injEq] at h
      rw [List.set_cons_zero, h]
    | succ i0 =>
      simp only [List.getElem?_cons_succ] at h
      rw [List.set_cons_succ, ih i0 a h]

theorem dedupGo_eq (rs : List Record) :
    ∀ seen : List String,
      dedupGo seen rs = (keepFirstByName rs).filter (fun r => recName r ∉ seen) := by
  induction rs with
  | nil => intro seen; simp [dedupGo, keepFirstByName]
  | cons r rs ih =>
    intro seen
    by_cases h0 : recName r = ""
    · show (if recName r = "" then dedupGo seen rs
        else if recName r ∈ seen then dedupGo seen rs
        else r :: dedupGo (recName r :: seen) rs) = _
      rw [if_pos h0, keepFirstByName, if_pos h0, ih]
    · show (if recName r = "" then dedupGo seen rs
        else if recName r ∈ seen then dedupGo seen rs
        else r :: dedupGo (recName r :: seen) rs) = _
      rw [if_neg h0, keepFirstByName, if_neg h0]
      by_cases h1 : recName r ∈ seen
      · rw [if_pos h1, ih, List.filter_cons, if_neg (by simp [h1])]
        rw [List.filter_filter]
        apply List.filter_congr
        intro x _
        by_cases hx : recName x ∈ seen
        · simp [hx]
        · have : ¬recName x = recName r := fun hc => hx (hc ▸ h1)
          simp [hx, this]
      · rw [if_neg h1, ih (recName r :: seen), List.filter_cons, if_pos (by simp [h1])]
        congr 1
        rw [List.filter_filter]
        apply List.filter_congr
        intro x _
        by_cases hx : recName x = recName r
        · simp [hx]
        · simp [hx]

theorem dedupRecords_eq_keepFirst (rs : List Record) : dedupRecords rs = keepFirstByName rs := by
  rw [dedupRecords, dedupGo_eq rs []]
  have : ∀ x ∈ keepFirstByName rs, (decide (recName x ∉ ([] : List String))) = true := by
    intro x _
    simp
  rw [List.filter_eq_self.mpr this]

theorem norm_one_name (rec : JVal) (fb : Option String) (r : Record)
    (h : norm_one rec fb = some r) :
    ∃ v, alGet r "name" = some v ∧ (pyTruthy v = true ∨ v = .jstr "") := by
  cases rec with
  | jobj entries =>
    have h2 : (if pyTruthyOpt (alGet (dbOut entries fb) "name") then some (dbOut entries fb)
        else none) = some r := h
    split at h2
    case isTrue hguard =>
      obtain rfl : dbOut entries fb = r := by simpa using h2
      cases hg : alGet (dbOut entries fb) "name" with
      | none => rw [hg] at hguard; simp [pyTruthyOpt] at hguard
      | some v =>
        rw [hg] at hguard
        exact ⟨v, rfl, Or.inl hguard⟩
    case isFalse => exact absurd h2 (by simp)
  | jstr s =>
    obtain rfl : [("name", JVal.jstr s)] = r := by simpa [norm_one] using h
    by_cases hs : s = ""
    · exact ⟨.jstr s, by simp [alGet], Or.inr (by rw [hs])⟩
    · exact ⟨.jstr s, by simp [alGet], Or.inl (by simp [pyTruthy, hs])⟩
  | jnull => exact absurd h (by simp [norm_one])
  | jbool b => exact absurd h (by simp [norm_one])
  | jnum n => exact absurd h (by simp [norm_one])
  | jarr items => exact absurd h (by simp [norm_one])

theorem normalize_record_name (rec : JVal) (fb : Option String) (r : Record)
    (h : normalize_record rec fb = some r) :
    ∃ v, alGet r "name" = some v ∧ (pyTruthy v = true ∨ v = .jstr "") := by
  cases rec with
  | jobj entries =>
    have h2 : (if pyTruthyOpt (alGet (linkOut entries fb) "name") then some (linkOut entries fb)
        else none) = some r := h
    split at h2
    case isTrue hguard =>
      obtain rfl : linkOut entries fb = r := by simpa using h2
      cases hg : alGet (linkOut entries fb) "name" with
      | none => rw [hg] at hguard; simp [pyTruthyOpt] at hguard
      | some v =>
        rw [hg] at hguard
        exact ⟨v, rfl, Or.inl hguard⟩
    case isFalse => exact absurd h2 (by simp)
  | jstr s =>
    obtain rfl : [("name", JVal.jstr s)] = r := by simpa [normalize_record] using h
    by_cases hs : s = ""
    · exact ⟨.jstr s, by simp [alGet], Or.inr (by rw [hs])⟩
    · exact ⟨.jstr s, by simp [alGet], Or.inl (by simp [pyTruthy, hs])⟩
  | jnull => exact absurd h (by simp [normalize_record])
  | jbool b => exact absurd h (by simp [normalize_record])
  | jnum n => exact absurd h (by simp [normalize_record])
  | jarr items => exact absurd h (by simp [normalize_record])

theorem mem_dispatchTable (normf : JVal → Option String → Option Record)
    (entries : List (String × JVal)) (r : Record) (h : r ∈ dispatchTable normf entries) :
    ∃ rec fb, normf rec fb = some r := by
  obtain ⟨kv, _, hkv⟩ := List.mem_filterMap.mp h
  revert hkv
  cases kv.2 <;> exact fun hkv => ⟨_, _, hkv⟩

theorem mem_dispatchDocument (normf : JVal → Option String → Option Record) (data : JVal)
    (r : Record) (h : r ∈ dispatchDocument normf data) :
    ∃ rec fb, normf rec fb = some r := by
  cases data with
  | jarr items =>
    obtain ⟨a, _, ha⟩ := List.mem_filterMap.mp h
    exact ⟨a, none, ha⟩
  | jobj entries =>
    have h2 : r ∈ dispatchObj normf entries := h
    unfold dispatchObj at h2
    split at h2
    · obtain ⟨a, _, ha⟩ := List.mem_filterMap.mp h2
      exact ⟨a, none, ha⟩
    · exact mem_dispatchTable normf entries r h2
  | jnull => exact absurd h (by simp [dispatchDocument])
  | jbool b => exact absurd h (by simp [dispatchDocument])
  | jnum n => exact absurd h (by simp [dispatchDocument])
  | jstr s => exact absurd h (by simp [dispatchDocument])

theorem mem_jsonlGo (normf : JVal → Option String → Option Record)
    (parse : String → Option JVal) (lines : List String) :
    ∀ (acc : List Record) (r : Record), r ∈ jsonlGo normf parse acc lines →
      r ∈ acc ∨ ∃ obj, normf obj none = some r := by
  induction lines with
  | nil =>
    intro acc r h
    exact Or.inl h
  | cons line rest ih =>
    intro acc r h
    unfold jsonlGo at h
    split at h
    · exact ih acc r h
    · split at h
      · exact ih acc r h
      case h_2 obj hp =>
        split at h
        case h_1 x hn =>
          rcases ih (acc ++ [x]) r h with hmem | hex
          · rcases List.mem_append.mp hmem with h1 | h2
            · exact Or.inl h1
            · obtain rfl : r = x := by simpa using h2
              exact Or.inr ⟨obj, hn⟩
          · exact Or.inr hex
        case h_2 => exact ih acc r h

theorem jsonlGo_eq_filterMap (normf : JVal → Option String → Option Record)
    (parse : String → Option JVal) (lines : List String) :
    ∀ acc : List Record,
      jsonlGo normf parse acc lines
        = acc ++ lines.filterMap (jsonlStep normf parse) := by
  induction lines with
  | nil => intro acc; simp [jsonlGo]
  | cons line rest ih =>
    intro acc
    rw [List.filterMap_cons]
    unfold jsonlGo
    by_cases hb : pyStrip line = ""
    · rw [if_pos hb, show jsonlStep normf parse line = none from if_pos hb]
      exact ih acc
    · rw [if_neg hb]
      have hstep : jsonlStep normf parse line
          = match parse (pyStrip line) with
            | none => none
            | some obj => normf obj none := if_neg hb
      cases hp : parse (pyStrip line) with
      | none =>
        rw [show jsonlStep normf parse line = none from by rw [hstep, hp]]
        exact ih acc
      | some obj =>
        show (match normf obj none with
          | some x => jsonlGo normf parse (acc ++ [x]) rest
          | none => jsonlGo normf parse acc rest) = _
        cases hn : normf obj none with
        | none =>
          rw [show jsonlStep normf parse line = none from by rw [hstep, hp]; exact hn]
          exact ih acc
        | some x =>
          rw [show jsonlStep normf parse line = some x from by rw [hstep, hp]; exact hn]
          show jsonlGo normf parse (acc ++ [x]) rest
            = acc ++ (x :: List.filterMap (jsonlStep normf parse) rest)
          rw [ih (acc ++ [x]), List.append_assoc]
          rfl

/-- C4 (amended).  The consumer-side deduplication of `TabEditor.apply_records`
and `read_json_records` equals the keep-first-per-trimmed-name function: records
whose trimmed name is empty are dropped entirely; for each distinct non-empty
trimmed name exactly the first record is kept, later records with the same
trimmed name are dropped, and encounter order is preserved.  In particular,
normalizing and deduplicating `[{"name":"A","x":1},{"name":"A","x":2}]` yields
exactly one record for `A`, with `x = 1`. -/
theorem dedup_keeps_first_per_name :
    (∀ rs : List Record, dedupRecords rs = keepFirstByName rs)
    ∧ dedupRecords (dispatchDocument norm_one
        (.jarr [.jobj [("name", .jstr "A"), ("x", .jnum 1)],
                .jobj [("name", .jstr "A"), ("x", .jnum 2)]]))
      = [[("name", JVal.jstr "A"), ("x", JVal.jnum 1)]] :=
  ⟨dedupRecords_eq_keepFirst, rfl⟩

/-- C4 counterexample.  A normalized record whose name is the blank string
`" "` (accepted by the normalizer, since `" "` is truthy) is dropped entirely
by the dedup loop, while the claim as stated requires the first record of every
distinct trimmed name — including the empty trimmed name — to be kept. -/
theorem dedup_blank_name_cex :
    norm_one (.jobj [("name", .jstr " "), ("x", .jnum 1)]) none
      = some [("name", JVal.jstr " "), ("x", JVal.jnum 1)]
    ∧ dedupRecords [[("name", JVal.jstr " "), ("x", JVal.jnum 1)]] = [] :=
  ⟨rfl, rfl⟩

/-- C5 (confirmed).  When the strict JSON parse of the whole text fails,
`read_json_list` falls back to JSON-Lines mode: the result is exactly the
per-line filterMap in which blank lines, lines that fail to parse and lines
that fail to normalize contribute nothing — a single bad line never aborts the
read (the model is total). -/
theorem read_json_list_jsonl_fallback (parse : String → Option JVal) (text : String)
    (hfail : parse text = none) :
    read_json_list parse text = (splitLines text).filterMap (jsonlStep norm_one parse) := by
  unfold read_json_list
  rw [hfail]
  show jsonlGo norm_one parse [] (splitLines text) = _
  rw [jsonlGo_eq_filterMap norm_one parse (splitLines text) []]
  exact List.nil_append _

/-- C5 witness: on `'{"name":"A"}\nNOT JSON\n{"name":"B"}'` the whole-text
parse fails and the fallback yields exactly the records named `A` and `B`. -/
theorem read_json_list_jsonl_fallback_witness :
    parseDemoC5 "\x7b\"name\":\"A\"\x7d\nNOT JSON\n\x7b\"name\":\"B\"\x7d" = none
    ∧ read_json_list parseDemoC5 "\x7b\"name\":\"A\"\x7d\nNOT JSON\n\x7b\"name\":\"B\"\x7d"
      = [[("name", JVal.jstr "A")], [("name", JVal.jstr "B")]] := by
  refine ⟨rfl, ?_⟩
  rw [read_json_list_jsonl_fallback parseDemoC5
    "\x7b\"name\":\"A\"\x7d\nNOT JSON\n\x7b\"name\":\"B\"\x7d" rfl]
  rfl

/-- C1 (amended).  Every record produced by `read_json_list` (db_editor) or by
`read_json_records` before dedup (linkStart) contains a `name` entry, and its
value is Python-truthy — hence a non-empty string whenever it is a string —
except that a bare JSON string input is wrapped as `{"name": <string>}` without
any check, so the name value may also be the empty string. -/
theorem readers_name_present (parse : String → Option JVal) (text : String) (r : Record)
    (h : r ∈ read_json_list parse text ∨ r ∈ read_json_records_raw parse text) :
    ∃ v, alGet r "name" = some v ∧ (pyTruthy v = true ∨ v = .jstr "") := by
  rcases h with h | h
  · unfold read_json_list at h
    cases hp : parse text with
    | some data =>
      rw [hp] at h
      obtain ⟨rec, fb, hn⟩ := mem_dispatchDocument norm_one data r h
      exact norm_one_name rec fb r hn
    | none =>
      rw [hp] at h
      rcases mem_jsonlGo norm_one parse (splitLines text) [] r h with hmem | ⟨obj, hn⟩
      · exact absurd hmem (by simp)
      · exact norm_one_name obj none r hn
  · unfold read_json_records_raw at h
    cases hp : parse text with
    | some data =>
      rw [hp] at h
      obtain ⟨rec, fb, hn⟩ := mem_dispatchDocument normalize_record data r h
      exact normalize_record_name rec fb r hn
    | none =>
      rw [hp] at h
      rcases mem_jsonlGo normalize_record parse (splitLines text) [] r h with hmem | ⟨obj, hn⟩
      · exact absurd hmem (by simp)
      · exact normalize_record_name obj none r hn

/-- C1 witness: a one-record list input, with the produced record having the
truthy name `"A"`. -/
theorem readers_name_present_witness :
    ([("name", JVal.jstr "A")] ∈ read_json_list parseDemoC1W "[\x7b\"name\":\"A\"\x7d]"
      ∨ [("name", JVal.jstr "A")] ∈ read_json_records_raw parseDemoC1W "[\x7b\"name\":\"A\"\x7d]")
    ∧ ∃ v, alGet [("name", JVal.jstr "A")] "name" = some v
        ∧ (pyTruthy v = true ∨ v = JVal.jstr "") := by
  have hmem : [("name", JVal.jstr "A")]
      ∈ read_json_list parseDemoC1W "[\x7b\"name\":\"A\"\x7d]" := by
    rw [show read_json_list parseDemoC1W "[\x7b\"name\":\"A\"\x7d]"
      = [[("name", JVal.jstr "A")]] from rfl]
    exact List.mem_cons_self _ _
  exact ⟨Or.inl hmem,
    readers_name_present parseDemoC1W "[\x7b\"name\":\"A\"\x7d]" _ (Or.inl hmem)⟩

/-- C1 counterexample.  The input text `'[""]'` is a supported top-level list;
the bare-string branch of both normalizers wraps the empty string without any
check, so both readers return a record whose `name` value is the empty string. -/
theorem readers_empty_name_cex :
    read_json_list parseDemoC1 "[\"\"]" = [[("name", JVal.jstr "")]]
    ∧ read_json_records_raw parseDemoC1 "[\"\"]" = [[("name", JVal.jstr "")]]
    ∧ pyTruthy (JVal.jstr "") = false :=
  ⟨rfl, rfl, rfl⟩

/-- C3 (amended).  For every flat mapping whose non-empty trimmed keys are
pairwise distinct, `norm_one` returns exactly the record described by the
claim: the source entries with non-empty trimmed keys (keys stored trimmed,
null values replaced by the empty string), a name derived from the 名称 key,
then the title key, then the fallbackName argument (first truthy wins) when no
name key is present, and null when no truthy name results.  The distinctness
proviso is forced by the counterexample: when two keys share a trimmed form the
later entry overwrites the earlier one. -/
theorem norm_one_flat_mapping (m : List (String × JVal)) (fb : Option String)
    (hnd : (trimmedKeys m).Nodup) :
    norm_one (.jobj m) fb = normFlatSpec m fb := by
  have hout : dbOut m fb = specNamed m fb := by
    unfold dbOut specNamed
    rw [normOut_eq m hnd]
    by_cases hname : (alGet (entsOf m) "name").isSome
    · rw [if_pos hname, if_pos hname]
    · rw [if_neg hname, if_neg hname]
      cases nameChain (entsOf m) fb with
      | none => rfl
      | some nm =>
        exact alSet_of_absent (entsOf m) "name" (.jstr (pyStr nm))
          (Option.not_isSome_iff_eq_none.mp hname)
  show (if pyTruthyOpt (alGet (dbOut m fb) "name") then some (dbOut m fb) else none) = _
  rw [hout]
  rfl

/-- C3 witness: a mapping with distinct trimmed keys, a null value and an
untrimmed key, normalized exactly as the contract describes. -/
theorem norm_one_flat_mapping_witness :
    (trimmedKeys [(" desc ", JVal.jnull), ("名称", JVal.jstr "X")]).Nodup
    ∧ norm_one (.jobj [(" desc ", JVal.jnull), ("名称", JVal.jstr "X")]) none
      = normFlatSpec [(" desc ", JVal.jnull), ("名称", JVal.jstr "X")] none := by
  refine ⟨by decide, ?_⟩
  exact norm_one_flat_mapping [(" desc ", JVal.jnull), ("名称", JVal.jstr "X")] none (by decide)

/-- C3 counterexample.  The keys `"a "` and `" a"` both trim to `"a"`, so the
second entry overwrites the first: the returned record does not contain the
source entry `("a", 1)` even though its trimmed key is non-empty, contradicting
"exactly the source entries whose trimmed key is non-empty". -/
theorem norm_one_flat_mapping_cex :
    norm_one (.jobj [("name", .jstr "N"), ("a ", .jnum 1), (" a", .jnum 2)]) none
      = some [("name", JVal.jstr "N"), ("a", JVal.jnum 2)]
    ∧ ("a", JVal.jnum 1) ∉ [("name", JVal.jstr "N"), ("a", JVal.jnum 2)] := by
  refine ⟨rfl, ?_⟩
  intro h
  simp at h

theorem nullToEmpty_of_truthy (v : JVal) (h : pyTruthy v = true) : nullToEmpty v = v := by
  cases v with
  | jnull => simp [pyTruthy] at h
  | jbool b => rfl
  | jnum n => rfl
  | jstr s => rfl
  | jarr items => rfl
  | jobj entries => rfl

theorem pyTruthy_nullToEmpty (v : JVal) : pyTruthy (nullToEmpty v) = pyTruthy v := by
  cases v <;> rfl

theorem pyOrV_map_null (a b : Option JVal) : pyOrV (a.map nullToEmpty) b = pyOrV a b := by
  cases a with
  | none => rfl
  | some v =>
    show (if pyTruthy (nullToEmpty v) = true then some (nullToEmpty v) else b)
      = (if pyTruthy v = true then some v else b)
    rw [pyTruthy_nullToEmpty]
    by_cases hv : pyTruthy v = true
    · rw [if_pos hv, if_pos hv, nullToEmpty_of_truthy v hv]
    · rw [if_neg hv, if_neg hv]

theorem alGet_entsOf (m : List (String × JVal)) (htr : ∀ kv ∈ m, pyStrip kv.1 = kv.1)
    (k : String) (hk : k ≠ "") : alGet (entsOf m) k = (alGet m k).map nullToEmpty := by
  induction m with
  | nil => rfl
  | cons kv m ih =>
    have htk : pyStrip kv.1 = kv.1 := htr kv (List.mem_cons_self kv m)
    have ihm := ih (fun kv2 h2 => htr kv2 (List.mem_cons_of_mem kv h2))
    by_cases hb : kv.1 = ""
    · have hblank : pyStrip kv.1 = "" := by rw [htk, hb]
      rw [entsOf_cons_blank kv m hblank]
      have hne : ¬kv.1 = k := fun hc => hk (by rw [← hc, hb])
      show alGet (entsOf m) k = (alGet (kv :: m) k).map nullToEmpty
      rw [show alGet (kv :: m) k = alGet m k from by simp [alGet, hne]]
      exact ihm
    · have hkeep : ¬pyStrip kv.1 = "" := by rw [htk]; exact hb
      rw [entsOf_cons_keep kv m hkeep]
      by_cases hkk : kv.1 = k
      · show (if pyStrip kv.1 = k then some (nullToEmpty kv.2) else alGet (entsOf m) k) = _
        rw [htk, if_pos hkk]
        rw [show alGet (kv :: m) k = some kv.2 from by simp [alGet, hkk]]
        rfl
      · show (if pyStrip kv.1 = k then some (nullToEmpty kv.2) else alGet (entsOf m) k) = _
        rw [htk, if_neg hkk]
        rw [show alGet (kv :: m) k = alGet m k from by simp [alGet, hkk]]
        exact ihm

theorem nameChain_entsOf (m : List (String × JVal)) (fb : Option String)
    (htr : ∀ kv ∈ m, pyStrip kv.1 = kv.1) :
    nameChain (entsOf m) fb = nameChain m fb := by
  unfold nameChain
  rw [alGet_entsOf m htr "名称" (by decide), alGet_entsOf m htr "title" (by decide),
    pyOrV_map_null, pyOrV_map_null]

theorem mem_keys_of_mem_trimmedKeys (m : List (String × JVal))
    (htr : ∀ kv ∈ m, pyStrip kv.1 = kv.1) (k : String) (hk : k ∈ trimmedKeys m) :
    k ∈ m.map Prod.fst := by
  obtain ⟨kv, hkv, rfl⟩ := List.mem_map.mp hk
  have hm := List.mem_of_mem_filter hkv
  rw [htr kv hm]
  exact List.mem_map_of_mem Prod.fst hm

theorem trimmedKeys_nodup_of_tidy (m : List (String × JVal))
    (htr : ∀ kv ∈ m, pyStrip kv.1 = kv.1) (hnd : (m.map Prod.fst).Nodup) :
    (trimmedKeys m).Nodup := by
  induction m with
  | nil => simp [trimmedKeys]
  | cons kv m ih =>
    rw [List.map_cons, List.nodup_cons] at hnd
    have htr2 : ∀ kv2 ∈ m, pyStrip kv2.1 = kv2.1 :=
      fun kv2 h2 => htr kv2 (List.mem_cons_of_mem kv h2)
    by_cases hb : pyStrip kv.1 = ""
    · rw [trimmedKeys_cons_blank kv m hb]
      exact ih htr2 hnd.2
    · rw [trimmedKeys_cons_keep kv m hb, List.nodup_cons]
      refine ⟨?_, ih htr2 hnd.2⟩
      intro hc
      apply hnd.1
      rw [← htr kv (List.mem_cons_self kv m)]
      exact mem_keys_of_mem_trimmedKeys m htr2 (pyStrip kv.1) hc

/-- C10 (amended).  The two single-record normalizers — `norm_one` in db_editor
and `_normalize_record` in linkStart — agree on every non-mapping value, and on
every mapping whose keys are already trimmed (and pairwise distinct, as
`json.loads` guarantees).  The proviso is forced by the counterexample: for a
mapping with an untrimmed key the derivation chains read different
dictionaries. -/
theorem normalizers_agree (v : JVal) (fb : Option String) (h : tidyKeys v) :
    norm_one v fb = normalize_record v fb := by
  cases v with
  | jobj m =>
    obtain ⟨htr, hnd⟩ := h
    have hndt : (trimmedKeys m).Nodup := trimmedKeys_nodup_of_tidy m htr hnd
    have hno : normOut m = entsOf m := normOut_eq m hndt
    have hname : alGet (entsOf m) "name" = (alGet m "name").map nullToEmpty :=
      alGet_entsOf m htr "name" (by decide)
    have hchain : nameChain (entsOf m) fb = nameChain m fb := nameChain_entsOf m fb htr
    have hout : dbOut m fb = linkOut m fb := by
      unfold dbOut linkOut linkName
      rw [hno, hchain]
      cases hv : alGet m "name" with
      | some v0 =>
        have hsome : (alGet (entsOf m) "name").isSome = true := by
          rw [hname, hv]
          rfl
        rw [if_pos hsome]
        by_cases htv : pyTruthy v0 = true
        · show entsOf m = (match (if pyTruthy v0 = true then some v0 else nameChain m fb) with
            | some nm =>
              if (alGet (entsOf m) "name").isSome = true then entsOf m
              else alSet (entsOf m) "name" (.jstr (pyStr nm))
            | none => entsOf m)
          rw [if_pos htv]
          show entsOf m = if (alGet (entsOf m) "name").isSome = true then entsOf m
            else alSet (entsOf m) "name" (.jstr (pyStr v0))
          rw [if_pos hsome]
        · show entsOf m = (match (if pyTruthy v0 = true then some v0 else nameChain m fb) with
            | some nm =>
              if (alGet (entsOf m) "name").isSome = true then entsOf m
              else alSet (entsOf m) "name" (.jstr (pyStr nm))
            | none => entsOf m)
          rw [if_neg htv]
          cases nameChain m fb with
          | none => rfl
          | some nm =>
            show entsOf m = if (alGet (entsOf m) "name").isSome = true then entsOf m
              else alSet (entsOf m) "name" (.jstr (pyStr nm))
            rw [if_pos hsome]
      | none =>
        have hnone : alGet (entsOf m) "name" = none := by
          rw [hname, hv]
          rfl
        have hsome : ¬(alGet (entsOf m) "name").isSome = true := by
          rw [hnone]
          simp
        rw [if_neg hsome]
        cases nameChain m fb with
        | none => rfl
        | some nm =>
          show alSet (entsOf m) "name" (.jstr (pyStr nm))
            = if (alGet (entsOf m) "name").isSome = true then entsOf m
              else alSet (entsOf m) "name" (.jstr (pyStr nm))
          rw [if_neg hsome]
    show (if pyTruthyOpt (alGet (dbOut m fb) "name") then some (dbOut m fb) else none)
      = (if pyTruthyOpt (alGet (linkOut m fb) "name") then some (linkOut m fb) else none)
    rw [hout]
  | jnull => rfl
  | jbool b => rfl
  | jnum n => rfl
  | jstr s => rfl
  | jarr items => rfl

/-- C10 witness: both normalizers agree on a tidy one-entry mapping. -/
theorem normalizers_agree_witness :
    tidyKeys (JVal.jobj [("name", JVal.jstr "A")])
    ∧ norm_one (JVal.jobj [("name", JVal.jstr "A")]) none
      = normalize_record (JVal.jobj [("name", JVal.jstr "A")]) none := by
  have ht : tidyKeys (JVal.jobj [("name", JVal.jstr "A")]) := ⟨by decide, by decide⟩
  exact ⟨ht, normalizers_agree (JVal.jobj [("name", JVal.jstr "A")]) none ht⟩

/-- C10 counterexample.  On the mapping with the single key `"名称 "` (trailing
space) and no fallback, `norm_one` derives the name from the trimmed output
dictionary and returns a record, while `_normalize_record` looks the 名称 key
up on the raw dictionary, finds nothing, and rejects the record. -/
theorem normalizers_differ_cex :
    norm_one (.jobj [("名称 ", .jstr "X")]) none
      = some [("名称", JVal.jstr "X"), ("name", JVal.jstr "X")]
    ∧ normalize_record (.jobj [("名称 ", .jstr "X")]) none = none :=
  ⟨rfl, rfl⟩

theorem nullToEmpty_of_not_null (v : JVal) (h : isNullB v = false) : nullToEmpty v = v := by
  cases v with
  | jnull => simp [isNullB] at h
  | jbool b => rfl
  | jnum n => rfl
  | jstr s => rfl
  | jarr items => rfl
  | jobj entries => rfl

theorem entsOf_eq_self (r : Record)
    (h : ∀ kv ∈ r, kv.1 ≠ "" ∧ pyStrip kv.1 = kv.1 ∧ isNullB kv.2 = false) :
    entsOf r = r := by
  induction r with
  | nil => rfl
  | cons kv r ih =>
    obtain ⟨hk, htk, hnn⟩ := h kv (List.mem_cons_self kv r)
    rw [entsOf_cons_keep kv r (by rw [htk]; exact hk), htk,
      nullToEmpty_of_not_null kv.2 hnn,
      ih (fun kv2 h2 => h kv2 (List.mem_cons_of_mem kv h2))]

theorem trimmedKeys_eq_keys (r : Record)
    (h : ∀ kv ∈ r, kv.1 ≠ "" ∧ pyStrip kv.1 = kv.1) :
    trimmedKeys r = r.map Prod.fst := by
  induction r with
  | nil => rfl
  | cons kv r ih =>
    obtain ⟨hk, htk⟩ := h kv (List.mem_cons_self kv r)
    rw [trimmedKeys_cons_keep kv r (by rw [htk]; exact hk), htk, List.map_cons,
      ih (fun kv2 h2 => h kv2 (List.mem_cons_of_mem kv h2))]

theorem norm_one_canonical (r : Record) (h : canonicalRecord r) :
    norm_one (.jobj r) none = some r := by
  obtain ⟨hnd, hent, hname⟩ := h
  have hents : entsOf r = r :=
    entsOf_eq_self r (fun kv h2 => ⟨(hent kv h2).1, (hent kv h2).2.1, (hent kv h2).2.2.1⟩)
  have hndt : (trimmedKeys r).Nodup := by
    rw [trimmedKeys_eq_keys r (fun kv h2 => ⟨(hent kv h2).1, (hent kv h2).2.1⟩)]
    exact hnd
  obtain ⟨s, hget, hs⟩ : ∃ s, alGet r "name" = some (.jstr s) ∧ s ≠ "" := by
    unfold nameIsNonemptyStr at hname
    cases hg : alGet r "name" with
    | none => rw [hg] at hname; simp at hname
    | some v =>
      rw [hg] at hname
      cases v with
      | jstr s => exact ⟨s, rfl, by simpa using hname⟩
      | jnull => simp at hname
      | jbool b => simp at hname
      | jnum n => simp at hname
      | jarr items => simp at hname
      | jobj entries => simp at hname
  have hout : dbOut r none = r := by
    unfold dbOut
    rw [normOut_eq r hndt, hents, if_pos (by rw [hget]; rfl)]
  show (if pyTruthyOpt (alGet (dbOut r none) "name") then some (dbOut r none) else none) = some r
  rw [hout, hget]
  show (if pyTruthy (.jstr s) then some r else none) = some r
  rw [if_pos (by simpa [pyTruthy] using hs)]

theorem filterMap_norm_one_canonical (rs : List Record) (h : ∀ r ∈ rs, canonicalRecord r) :
    (rs.map JVal.jobj).filterMap (fun it => norm_one it none) = rs := by
  induction rs with
  | nil => rfl
  | cons r rs ih =>
    rw [List.map_cons, List.filterMap_cons,
      norm_one_canonical r (h r (List.mem_cons_self r rs)),
      ih (fun r2 h2 => h r2 (List.mem_cons_of_mem r h2))]

/-- C8 (confirmed).  Loading a file whose parsed content is exactly the
document `write_json_list` serializes for a canonical RecordSet returns the
very same record sequence — same names, same field values (the on-disk bytes
may differ; `json.dump` then `json.loads` is modelled as the identity on the
document). -/
theorem save_load_roundtrip (parse : String → Option JVal) (text : String) (rs : List Record)
    (hparse : parse text = some (write_json_list rs))
    (hcanon : ∀ r ∈ rs, canonicalRecord r) :
    read_json_list parse text = rs := by
  unfold read_json_list
  rw [hparse]
  show dispatchDocument norm_one (write_json_list rs) = rs
  show (rs.map JVal.jobj).filterMap (fun it => norm_one it none) = rs
  exact filterMap_norm_one_canonical rs hcanon

/-- C8 witness: a concrete canonical one-record set survives the round trip. -/
theorem save_load_roundtrip_witness :
    parseDemoC8 "races.json"
      = some (write_json_list [[("name", JVal.jstr "A"), ("desc", JVal.jstr "d")]])
    ∧ (∀ r ∈ [[("name", JVal.jstr "A"), ("desc", JVal.jstr "d")]], canonicalRecord r)
    ∧ read_json_list parseDemoC8 "races.json"
      = [[("name", JVal.jstr "A"), ("desc", JVal.jstr "d")]] := by
  have hcanon : ∀ r ∈ [[("name", JVal.jstr "A"), ("desc", JVal.jstr "d")]], canonicalRecord r := by
    intro r hr
    obtain rfl : r = [("name", JVal.jstr "A"), ("desc", JVal.jstr "d")] := by simpa using hr
    exact ⟨by decide, by decide, by decide⟩
  exact ⟨rfl, hcanon,
    save_load_roundtrip parseDemoC8 "races.json"
      [[("name", JVal.jstr "A"), ("desc", JVal.jstr "d")]] rfl hcanon⟩

theorem dropWhile_eq_self_of_strip (l : List Char) (hl : stripChars l = l) :
    l.dropWhile isPyWS = l := by
  have h1 : (l.dropWhile isPyWS).length ≤ l.length := (List.dropWhile_suffix isPyWS).length_le
  have h2 : (stripChars l).length ≤ (l.dropWhile isPyWS).length := by
    rw [stripChars_eq_rdrop]
    exact (List.rdropWhile_prefix isPyWS (l.dropWhile isPyWS)).length_le
  rw [hl] at h2
  exact (List.dropWhile_suffix isPyWS).eq_of_length (by omega)

theorem head_not_ws_of_strip (c : Char) (cs : List Char) (hl : stripChars (c :: cs) = c :: cs) :
    isPyWS c = false := by
  have hd := dropWhile_eq_self_of_strip (c :: cs) hl
  rw [List.dropWhile_cons] at hd
  by_cases h : isPyWS c = true
  · rw [if_pos h] at hd
    have := congrArg List.length hd
    have h2 : (cs.dropWhile isPyWS).length ≤ cs.length := (List.dropWhile_suffix isPyWS).length_le
    simp at this
    omega
  · simpa using h

theorem stripChars_concat_closed (l : List Char) (c : Char) (hc : isPyWS c = false)
    (hhead : ∀ hl : 0 < (l ++ [c]).length, isPyWS ((l ++ [c]).get ⟨0, hl⟩) = false) :
    stripChars (l ++ [c]) = l ++ [c] := by
  apply stripChars_eq_self
  · exact hhead
  · intro hne
    rw [List.getLast_concat]
    exact hc

theorem stripChars_append_closed (l m : List Char) (hl : stripChars l = l) (hne : l ≠ []) :
    stripChars (l ++ m ++ [')']) = l ++ m ++ [')'] := by
  cases l with
  | nil => exact absurd rfl hne
  | cons c cs =>
    have hassoc : c :: cs ++ m ++ [')'] = (c :: (cs ++ m)) ++ [')'] := by simp
    rw [hassoc]
    apply stripChars_concat_closed
    · rfl
    · intro h0
      show isPyWS c = false
      exact head_not_ws_of_strip c cs hl

theorem pyStrip_cand_closed (nm mid : String) (hnm : pyStrip nm = nm) (hne : nm ≠ "") :
    pyStrip (nm ++ mid ++ ")") = nm ++ mid ++ ")" := by
  apply String.ext
  show stripChars (nm ++ mid ++ ")").data = (nm ++ mid ++ ")").data
  rw [String.data_append, String.data_append]
  have hdata : nm.data ≠ [] := by
    intro hc
    apply hne
    apply String.ext
    rw [hc]
  have hstrip : stripChars nm.data = nm.data := congrArg String.data hnm
  show stripChars (nm.data ++ mid.data ++ [')']) = nm.data ++ mid.data ++ [')']
  exact stripChars_append_closed nm.data mid.data hstrip hdata

theorem candRename_stripped (nm : String) (k : Nat) (hnm : pyStrip nm = nm) (hne : nm ≠ "") :
    pyStrip (candRename nm k) = candRename nm k := by
  unfold candRename
  rw [show nm ++ " (" ++ natStr k ++ ")" = nm ++ (" (" ++ natStr k) ++ ")" from by
    rw [String.append_assoc nm " (" (natStr k)]]
  exact pyStrip_cand_closed nm (" (" ++ natStr k) hnm hne

theorem candDup_stripped (nm : String) (k : Nat) (hnm : pyStrip nm = nm) (hne : nm ≠ "") :
    pyStrip (candDup nm k) = candDup nm k := by
  unfold candDup
  rw [show nm ++ " (复制" ++ natStr k ++ ")" = nm ++ (" (复制" ++ natStr k) ++ ")" from by
    rw [String.append_assoc nm " (复制" (natStr k)]]
  exact pyStrip_cand_closed nm (" (复制" ++ natStr k) hnm hne

theorem candRename_ne_empty (nm : String) (k : Nat) : candRename nm k ≠ "" := by
  intro hc
  have := congrArg String.data hc
  rw [candRename] at this
  rw [String.data_append] at this
  simp at this

theorem candDup_ne_empty (nm : String) (k : Nat) : candDup nm k ≠ "" := by
  intro hc
  have := congrArg String.data hc
  rw [candDup] at this
  rw [String.data_append] at this
  simp at this

/-- C6 (confirmed).  For a parsed CSV with at least two rows, the second row is
skipped as a description row exactly when it contains at least one non-blank
cell; when it is entirely blank it flows into the data rows together with rows
three onward (the separate all-blank-row filter inside `buildDataRows` then
applies to it like to any other data row). -/
theorem csv_second_row_rule (r0 r1 : List String) (rest : List (List String)) :
    read_csv_rows (r0 :: r1 :: rest)
      = (if (r1.map cleanCell).any (fun c => c ≠ "") then
          buildDataRows ((r0.map cleanCell).map cleanHeader)
            (rest.map (fun r => r.map cleanCell))
        else
          buildDataRows ((r0.map cleanCell).map cleanHeader)
            (r1.map cleanCell :: rest.map (fun r => r.map cleanCell))) := by
  show buildDataRows ((r0.map cleanCell).map cleanHeader)
      (if (r1.map cleanCell).any (fun c => pyStrip c ≠ "") then
        rest.map (fun r => r.map cleanCell)
      else r1.map cleanCell :: rest.map (fun r => r.map cleanCell)) = _
  have hcond : (r1.map cleanCell).any (fun c => pyStrip c ≠ "")
      = (r1.map cleanCell).any (fun c => c ≠ "") := by
    rw [List.any_map, List.any_map]
    congr 1
    funext c
    show decide (pyStrip (cleanCell c) ≠ "") = decide (cleanCell c ≠ "")
    rw [show pyStrip (cleanCell c) = cleanCell c from pyStrip_idem c]
  rw [hcond]
  by_cases h : (r1.map cleanCell).any (fun c => c ≠ "") = true
  · rw [if_pos h, if_pos h]
  · rw [if_neg h, if_neg h]

theorem recName_alSet_name (r : Record) (s : String) :
    recName (alSet r "name" (.jstr s)) = pyStrip s := by
  unfold recName
  rw [alGet_alSet_self]
  rfl

theorem recName_buildCsvRec (fieldKeys : List String) (row : List (String × String))
    (nm : String) : recName (buildCsvRec fieldKeys row nm) = pyStrip nm := by
  unfold buildCsvRec
  exact recName_alSet_name _ nm

/-- C7 (confirmed).  Under the overwrite policy, an incoming row whose trimmed
name matches an existing record replaces the (unique, first) record carrying
that name in place — same position, every other position unchanged — and only
the `updated` counter grows; a row whose extracted name is blank leaves the
state completely unchanged under every policy. -/
theorem csv_import_overwrite_frame :
    (∀ (nameCol : String) (fieldKeys : List String) (rs : List Record) (c : Counts)
       (row : List (String × String)) (nm : String) (i : Nat),
      pyStrip ((alGet row nameCol).getD "") = nm →
      alGet (rebuildIndex rs) nm = some i →
      csvImportStep .overwrite nameCol fieldKeys (rs, c) row
          = (rs.set i (buildCsvRec fieldKeys row nm),
             Counts.mk c.added (c.updated + 1) c.skipped c.renamed)
        ∧ (rs.map recName)[i]? = some nm
        ∧ (∀ j, j < i → (rs.map recName)[j]? ≠ some nm)
        ∧ (∀ j, j ≠ i → (rs.set i (buildCsvRec fieldKeys row nm))[j]? = rs[j]?))
    ∧ (∀ (pol : Policy) (nameCol : String) (fieldKeys : List String)
         (st : List Record × Counts) (row : List (String × String)),
        pyStrip ((alGet row nameCol).getD "") = "" →
        csvImportStep pol nameCol fieldKeys st row = st) := by
  constructor
  · intro nameCol fieldKeys rs c row nm i hnm hidx
    subst hnm
    have hne : ¬pyStrip ((alGet row nameCol).getD "") = "" := by
      intro hblank
      rw [hblank, indexGet_eq] at hidx
      simp at hidx
    have hfix : firstIdxName rs (pyStrip ((alGet row nameCol).getD "")) = some i := by
      rw [indexGet_eq, if_neg hne] at hidx
      exact hidx
    obtain ⟨hlen, hget, hmin⟩ := firstIdxName_some_facts rs _ i hfix
    refine ⟨?_, hget, fun j hj => hmin j hj, fun j hj => List.getElem?_set_ne (fun hc => hj hc.symm)⟩
    unfold csvImportStep
    rw [if_neg hne, hidx]
  · intro pol nameCol fieldKeys st row hblank
    unfold csvImportStep
    rw [if_pos hblank]

/-- C7 witness: one overwrite on a two-record list, and a blank-name row that
changes nothing. -/
theorem csv_import_overwrite_frame_witness :
    (pyStrip ((alGet [("name", "B"), ("desc", "new")] "name").getD "") = "B"
      ∧ alGet (rebuildIndex [[("name", JVal.jstr "A")], [("name", JVal.jstr "B")]]) "B" = some 1
      ∧ csvImportStep .overwrite "name" ["name", "desc"]
          ([[("name", JVal.jstr "A")], [("name", JVal.jstr "B")]], Counts.mk 0 0 0 0)
          [("name", "B"), ("desc", "new")]
        = ([[("name", JVal.jstr "A")], [("name", JVal.jstr "B")]].set 1
             (buildCsvRec ["name", "desc"] [("name", "B"), ("desc", "new")] "B"),
           Counts.mk 0 1 0 0))
    ∧ (pyStrip ((alGet [("name", "  ")] "name").getD "") = ""
      ∧ csvImportStep .overwrite "name" ["name"]
          ([[("name", JVal.jstr "A")]], Counts.mk 0 0 0 0) [("name", "  ")]
        = ([[("name", JVal.jstr "A")]], Counts.mk 0 0 0 0)) := by
  refine ⟨⟨rfl, rfl, ?_⟩, ⟨rfl, ?_⟩⟩
  · exact (csv_import_overwrite_frame.1 "name" ["name", "desc"]
      [[("name", JVal.jstr "A")], [("name", JVal.jstr "B")]] (Counts.mk 0 0 0 0)
      [("name", "B"), ("desc", "new")] "B" 1 rfl rfl).1
  · exact csv_import_overwrite_frame.2 .overwrite "name" ["name"]
      ([[("name", JVal.jstr "A")]], Counts.mk 0 0 0 0) [("name", "  ")] rfl

/-- C2 (confirmed).  Under the rename policy, an incoming row whose trimmed
name `nm` collides with the current record list (existing records plus rows
already added or renamed earlier in the same batch: `import_csv` rebuilds the
index after every row, and `csvImport` folds `csvImportStep` through the
growing list) is appended under `"{nm} ({k})"` where `k` is the smallest
integer `≥ 2` such that that name is not already used by any current record;
only the `renamed` counter grows, and the records before the append — the
original collided record included — are untouched. -/
theorem csv_import_rename_smallest (nameCol : String) (fieldKeys : List String)
    (rs : List Record) (c : Counts) (row : List (String × String)) (nm : String)
    (hnm : pyStrip ((alGet row nameCol).getD "") = nm)
    (hcol : (alGet (rebuildIndex rs) nm).isSome = true) :
    ∃ k, 2 ≤ k
      ∧ candRename nm k ∉ rs.map recName
      ∧ (∀ j, 2 ≤ j → j < k → candRename nm j ∈ rs.map recName)
      ∧ csvImportStep .rename nameCol fieldKeys (rs, c) row
          = (rs ++ [alSet (buildCsvRec fieldKeys row nm) "name" (.jstr (candRename nm k))],
             Counts.mk c.added c.updated c.skipped (c.renamed + 1))
      ∧ recName (alSet (buildCsvRec fieldKeys row nm) "name" (.jstr (candRename nm k)))
          = candRename nm k := by
  subst hnm
  have hmem := (indexGet_isSome_iff rs _).mp hcol
  have hne : ¬pyStrip ((alGet row nameCol).getD "") = "" := hmem.1
  have hNstr : pyStrip (pyStrip ((alGet row nameCol).getD ""))
      = pyStrip ((alGet row nameCol).getD "") := pyStrip_idem _
  obtain ⟨hk2, hkfree, hkmin⟩ :=
    freshGo_least (indexKeys rs) (candRename (pyStrip ((alGet row nameCol).getD "")))
      (candRename_inj _) 2
  refine ⟨freshGo (indexKeys rs) (candRename (pyStrip ((alGet row nameCol).getD ""))) 2
      ((indexKeys rs).length + 1), hk2, ?_, ?_, ?_, ?_⟩
  · intro hc
    exact hkfree ((indexKeys_mem_iff rs _).mpr ⟨candRename_ne_empty _ _, hc⟩)
  · intro j h2 hj
    exact ((indexKeys_mem_iff rs _).mp (hkmin j h2 hj)).2
  · obtain ⟨i0, hi0⟩ := Option.isSome_iff_exists.mp hcol
    unfold csvImportStep
    rw [if_neg hne, hi0]
  · rw [recName_alSet_name]
    exact candRename_stripped _ _ hNstr hne

/-- C2 witness: with one existing record `A`, renaming a colliding row uses the
smallest free suffix, and two colliding rows named `A` in one batch yield
`"A (2)"` then `"A (3)"` with the original record unchanged. -/
theorem csv_import_rename_smallest_witness :
    (pyStrip ((alGet [("name", "A")] "name").getD "") = "A"
      ∧ (alGet (rebuildIndex [[("name", JVal.jstr "A")]]) "A").isSome = true
      ∧ ∃ k, 2 ≤ k
        ∧ candRename "A" k ∉ [[("name", JVal.jstr "A")]].map recName
        ∧ (∀ j, 2 ≤ j → j < k → candRename "A" j ∈ [[("name", JVal.jstr "A")]].map recName)
        ∧ csvImportStep .rename "name" ["name"] ([[("name", JVal.jstr "A")]], Counts.mk 0 0 0 0)
            [("name", "A")]
          = ([[("name", JVal.jstr "A")]]
              ++ [alSet (buildCsvRec ["name"] [("name", "A")] "A") "name"
                   (.jstr (candRename "A" k))],
             Counts.mk 0 0 0 1)
        ∧ recName (alSet (buildCsvRec ["name"] [("name", "A")] "A") "name"
            (.jstr (candRename "A" k))) = candRename "A" k)
    ∧ csvImport .rename "name" ["name"] [[("name", JVal.jstr "A")]]
        [[("name", "A")], [("name", "A")]]
      = ([[("name", JVal.jstr "A")], [("name", JVal.jstr "A (2)")],
          [("name", JVal.jstr "A (3)")]], Counts.mk 0 0 0 2) := by
  refine ⟨⟨rfl, rfl, ?_⟩, rfl⟩
  exact csv_import_rename_smallest "name" ["name"] [[("name", JVal.jstr "A")]]
    (Counts.mk 0 0 0 0) [("name", "A")] "A" rfl rfl

theorem pyStrip_recName (r : Record) : pyStrip (recName r) = recName r := by
  unfold recName
  exact pyStrip_idem _

theorem stripped_of_mem_names (rs : List Record) (nm : String) (h : nm ∈ rs.map recName) :
    pyStrip nm = nm := by
  obtain ⟨r, _, rfl⟩ := List.mem_map.mp h
  exact pyStrip_recName r

theorem namesOk_append_one (rs : List Record) (r : Record) (h : namesOk rs)
    (hne : recName r ≠ "") (hnm : recName r ∉ rs.map recName) : namesOk (rs ++ [r]) := by
  constructor
  · intro s hs
    rcases List.mem_append.mp hs with hs | hs
    · exact h.1 s hs
    · obtain rfl : s = r := by simpa using hs
      exact hne
  · rw [List.map_append]
    rw [List.nodup_append]
    refine ⟨h.2, by simp, ?_⟩
    intro x hx hx2
    obtain rfl : x = recName r := by simpa using hx2
    exact hnm hx

theorem dedupGo_namesOk (rs : List Record) :
    ∀ seen : List String,
      (∀ r ∈ dedupGo seen rs, recName r ≠ "")
      ∧ ((dedupGo seen rs).map recName).Nodup
      ∧ (∀ r ∈ dedupGo seen rs, recName r ∉ seen) := by
  induction rs with
  | nil => intro seen; exact ⟨by simp [dedupGo], by simp [dedupGo], by simp [dedupGo]⟩
  | cons r rs ih =>
    intro seen
    have hstep : dedupGo seen (r :: rs)
        = (if recName r = "" then dedupGo seen rs
           else if recName r ∈ seen then dedupGo seen rs
           else r :: dedupGo (recName r :: seen) rs) := rfl
    rw [hstep]
    by_cases h0 : recName r = ""
    · rw [if_pos h0]
      exact ih seen
    · rw [if_neg h0]
      by_cases h1 : recName r ∈ seen
      · rw [if_pos h1]
        exact ih seen
      · rw [if_neg h1]
        obtain ⟨ha, hb, hc⟩ := ih (recName r :: seen)
        refine ⟨?_, ?_, ?_⟩
        · intro s hs
          rcases List.mem_cons.mp hs with rfl | hs
          · exact h0
          · exact ha s hs
        · rw [List.map_cons, List.nodup_cons]
          refine ⟨?_, hb⟩
          intro hmem
          obtain ⟨s, hsmem, hseq⟩ := List.mem_map.mp hmem
          exact hc s hsmem (hseq ▸ List.mem_cons_self (recName r) seen)
        · intro s hs
          rcases List.mem_cons.mp hs with rfl | hs
          · exact h1
          · exact fun hmem => hc s hs (List.mem_cons_of_mem _ hmem)

theorem foldl_defaults_name (fd : List (String × JVal)) :
    ∀ acc : Record, (alGet acc "name").isSome = true →
      alGet (fd.foldl
        (fun out kd => if (alGet out kd.1).isSome then out else alSet out kd.1 kd.2) acc) "name"
      = alGet acc "name" := by
  induction fd with
  | nil => intro acc _; rfl
  | cons kd fd ih =>
    intro acc hacc
    rw [List.foldl_cons]
    by_cases h : (alGet acc kd.1).isSome = true
    · rw [show (if (alGet acc kd.1).isSome = true then acc else alSet acc kd.1 kd.2) = acc
        from if_pos h]
      exact ih acc hacc
    · rw [show (if (alGet acc kd.1).isSome = true then acc else alSet acc kd.1 kd.2)
        = alSet acc kd.1 kd.2 from if_neg h]
      have hne : ¬"name" = kd.1 := by
        intro hc
        rw [← hc] at h
        exact h hacc
      rw [ih (alSet acc kd.1 kd.2) (by rw [alGet_alSet_ne acc kd.1 "name" kd.2 hne]; exact hacc),
        alGet_alSet_ne acc kd.1 "name" kd.2 hne]

theorem addItem_namesOk (fd : List (String × JVal)) (rs : List Record) (name : String)
    (h : namesOk rs) : namesOk (addItem fd rs name) := by
  unfold addItem
  by_cases h0 : name = ""
  · rw [if_pos h0]; exact h
  · rw [if_neg h0]
    by_cases h1 : pyStrip name = ""
    · rw [if_pos h1]; exact h
    · rw [if_neg h1]
      by_cases h2 : (alGet (rebuildIndex rs) (pyStrip name)).isSome = true
      · rw [if_pos h2]; exact h
      · rw [if_neg h2]
        have hget : alGet (fd.foldl
            (fun out kd => if (alGet out kd.1).isSome then out else alSet out kd.1 kd.2)
            [("name", .jstr (pyStrip name))]) "name" = some (.jstr (pyStrip name)) := by
          rw [foldl_defaults_name fd [("name", .jstr (pyStrip name))] (by simp [alGet])]
          simp [alGet]
        have hrn : recName (fd.foldl
            (fun out kd => if (alGet out kd.1).isSome then out else alSet out kd.1 kd.2)
            [("name", .jstr (pyStrip name))]) = pyStrip name := by
          unfold recName
          rw [hget]
          show pyStrip (pyStrip name) = pyStrip name
          exact pyStrip_idem name
        apply namesOk_append_one rs _ h (by rw [hrn]; exact h1)
        rw [hrn]
        intro hmem
        exact h2 ((indexGet_isSome_iff rs (pyStrip name)).mpr ⟨h1, hmem⟩)

theorem dupItem_namesOk (rs : List Record) (old : String) (h : namesOk rs) :
    namesOk (dupItem rs old) := by
  unfold dupItem
  cases hidx : alGet (rebuildIndex rs) old with
  | none => exact h
  | some i =>
    have hsome : (alGet (rebuildIndex rs) old).isSome = true := by rw [hidx]; rfl
    obtain ⟨hold, holdmem⟩ := (indexGet_isSome_iff rs old).mp hsome
    have holdstr : pyStrip old = old := stripped_of_mem_names rs old holdmem
    obtain ⟨hk2, hkfree, hkmin⟩ :=
      freshGo_least (indexKeys rs) (candDup old) (candDup_inj old) 2
    have hrn : recName (alSet (rs.getD i []) "name"
        (.jstr (candDup old (freshGo (indexKeys rs) (candDup old) 2
          ((indexKeys rs).length + 1)))))
        = candDup old (freshGo (indexKeys rs) (candDup old) 2 ((indexKeys rs).length + 1)) := by
      rw [recName_alSet_name]
      exact candDup_stripped old _ holdstr hold
    apply namesOk_append_one rs _ h (by rw [hrn]; exact candDup_ne_empty old _)
    rw [hrn]
    intro hmem
    exact hkfree ((indexKeys_mem_iff rs _).mpr ⟨candDup_ne_empty old _, hmem⟩)

theorem delItem_namesOk (rs : List Record) (nm : String) (h : namesOk rs) :
    namesOk (delItem rs nm) := by
  unfold delItem
  cases hidx : alGet (rebuildIndex rs) nm with
  | none => exact h
  | some i =>
    constructor
    · intro r hr
      exact h.1 r ((List.eraseIdx_sublist rs i).subset hr)
    · exact h.2.sublist (List.Sublist.map recName (List.eraseIdx_sublist rs i))

theorem set_namesOk (rs : List Record) (i : Nat) (rec : Record) (h : namesOk rs)
    (hpos : (rs.map recName)[i]? = some (recName rec) ∨ recName rec ∉ rs.map recName)
    (hne : recName rec ≠ "") : namesOk (rs.set i rec) := by
  constructor
  · intro r hr
    rcases List.mem_or_eq_of_mem_set hr with hmem | rfl
    · exact h.1 r hmem
    · exact hne
  · rw [List.map_set]
    rcases hpos with hpos | hpos
    · rw [set_getElem_self (rs.map recName) i (recName rec) hpos]
      exact h.2
    · exact nodup_set_of_not_mem (rs.map recName) i (recName rec) h.2 hpos

theorem saveCurrentItem_namesOk (rs : List Record) (old : String) (rec : Record)
    (requiredKeys : List String) (h : namesOk rs) :
    namesOk (saveCurrentItem rs old rec requiredKeys) := by
  cases hidx : alGet (rebuildIndex rs) old with
  | none =>
    have hred : saveCurrentItem rs old rec requiredKeys = rs := by
      unfold saveCurrentItem
      rw [hidx]
    rw [hred]
    exact h
  | some i =>
    have hred : saveCurrentItem rs old rec requiredKeys
        = (if (requiredKeys.any
              fun k => pyStrip (pyStr ((alGet rec k).getD (.jstr ""))) = "") = true then rs
           else if pyStrip (pyStr ((alGet rec "name").getD (.jstr ""))) = "" then rs
           else if pyStrip (pyStr ((alGet rec "name").getD (.jstr ""))) ≠ old
              ∧ (alGet (rebuildIndex rs)
                  (pyStrip (pyStr ((alGet rec "name").getD (.jstr ""))))).isSome = true then rs
           else rs.set i rec) := by
      unfold saveCurrentItem
      rw [hidx]
    rw [hred]
    by_cases h0 : (requiredKeys.any
        (fun k => pyStrip (pyStr ((alGet rec k).getD (.jstr ""))) = "")) = true
    · rw [if_pos h0]; exact h
    · rw [if_neg h0]
      by_cases h1 : pyStrip (pyStr ((alGet rec "name").getD (.jstr ""))) = ""
      · rw [if_pos h1]; exact h
      · rw [if_neg h1]
        by_cases h2 : pyStrip (pyStr ((alGet rec "name").getD (.jstr ""))) ≠ old
            ∧ (alGet (rebuildIndex rs)
                (pyStrip (pyStr ((alGet rec "name").getD (.jstr ""))))).isSome = true
        · rw [if_pos h2]; exact h
        · rw [if_neg h2]
          have hrec : recName rec = pyStrip (pyStr ((alGet rec "name").getD (.jstr ""))) := rfl
          apply set_namesOk rs i rec h ?_ (by rw [hrec]; exact h1)
          rcases not_and_or.mp h2 with hsame | hfree
          · left
            have hsame2 : recName rec = old := by rw [hrec]; exact not_not.mp hsame
            have hfix : firstIdxName rs old = some i := by
              have := hidx
              rw [indexGet_eq] at this
              by_cases ho : old = ""
              · rw [if_pos ho] at this; exact absurd this (by simp)
              · rw [if_neg ho] at this; exact this
            obtain ⟨_, hget, _⟩ := firstIdxName_some_facts rs old i hfix
            rw [hsame2]
            exact hget
          · right
            intro hmem
            apply hfree
            refine (indexGet_isSome_iff rs _).mpr ⟨h1, ?_⟩
            rw [← hrec]
            exact hmem

theorem csvImportStep_namesOk (pol : Policy) (nameCol : String) (fieldKeys : List String)
    (st : List Record × Counts) (row : List (String × String)) (h : namesOk st.1) :
    namesOk (csvImportStep pol nameCol fieldKeys st row).1 := by
  unfold csvImportStep
  by_cases hb : pyStrip ((alGet row nameCol).getD "") = ""
  · rw [if_pos hb]; exact h
  · rw [if_neg hb]
    have hrn : recName (buildCsvRec fieldKeys row (pyStrip ((alGet row nameCol).getD "")))
        = pyStrip ((alGet row nameCol).getD "") := by
      rw [recName_buildCsvRec]
      exact pyStrip_idem _
    cases hidx : alGet (rebuildIndex st.1) (pyStrip ((alGet row nameCol).getD "")) with
    | none =>
      show namesOk (st.1 ++ [buildCsvRec fieldKeys row (pyStrip ((alGet row nameCol).getD ""))])
      apply namesOk_append_one st.1 _ h (by rw [hrn]; exact hb)
      rw [hrn]
      intro hmem
      have : (alGet (rebuildIndex st.1) (pyStrip ((alGet row nameCol).getD ""))).isSome = true :=
        (indexGet_isSome_iff st.1 _).mpr ⟨hb, hmem⟩
      rw [hidx] at this
      simp at this
    | some i =>
      cases pol with
      | skip =>
        show namesOk st.1
        exact h
      | overwrite =>
        show namesOk (st.1.set i (buildCsvRec fieldKeys row (pyStrip ((alGet row nameCol).getD ""))))
        apply set_namesOk st.1 i _ h ?_ (by rw [hrn]; exact hb)
        left
        have hfix : firstIdxName st.1 (pyStrip ((alGet row nameCol).getD "")) = some i := by
          have h3 := hidx
          rw [indexGet_eq, if_neg hb] at h3
          exact h3
        obtain ⟨_, hget, _⟩ := firstIdxName_some_facts st.1 _ i hfix
        rw [hrn]
        exact hget
      | rename =>
        show namesOk (st.1 ++ [alSet (buildCsvRec fieldKeys row
          (pyStrip ((alGet row nameCol).getD ""))) "name"
          (.jstr (candRename (pyStrip ((alGet row nameCol).getD ""))
            (freshGo (indexKeys st.1) (candRename (pyStrip ((alGet row nameCol).getD ""))) 2
              ((indexKeys st.1).length + 1))))])
        have hNstr : pyStrip (pyStrip ((alGet row nameCol).getD ""))
            = pyStrip ((alGet row nameCol).getD "") := pyStrip_idem _
        obtain ⟨hk2, hkfree, hkmin⟩ :=
          freshGo_least (indexKeys st.1) (candRename (pyStrip ((alGet row nameCol).getD "")))
            (candRename_inj _) 2
        have hrn2 : recName (alSet (buildCsvRec fieldKeys row
            (pyStrip ((alGet row nameCol).getD ""))) "name"
            (.jstr (candRename (pyStrip ((alGet row nameCol).getD ""))
              (freshGo (indexKeys st.1) (candRename (pyStrip ((alGet row nameCol).getD ""))) 2
                ((indexKeys st.1).length + 1)))))
            = candRename (pyStrip ((alGet row nameCol).getD ""))
                (freshGo (indexKeys st.1) (candRename (pyStrip ((alGet row nameCol).getD ""))) 2
                  ((indexKeys st.1).length + 1)) := by
          rw [recName_alSet_name]
          exact candRename_stripped _ _ hNstr hb
        apply namesOk_append_one st.1 _ h (by rw [hrn2]; exact candRename_ne_empty _ _)
        rw [hrn2]
        intro hmem
        exact hkfree ((indexKeys_mem_iff st.1 _).mpr ⟨candRename_ne_empty _ _, hmem⟩)

theorem csvImport_namesOk (pol : Policy) (nameCol : String) (fieldKeys : List String)
    (rs : List Record) (rows : List (List (String × String))) (h : namesOk rs) :
    namesOk (csvImport pol nameCol fieldKeys rs rows).1 := by
  suffices hgen : ∀ st : List Record × Counts, namesOk st.1 →
      namesOk (rows.foldl (csvImportStep pol nameCol fieldKeys) st).1 by
    exact hgen (rs, Counts.mk 0 0 0 0) h
  induction rows with
  | nil => intro st h2; exact h2
  | cons row rest ih =>
    intro st h2
    rw [List.foldl_cons]
    exact ih _ (csvImportStep_namesOk pol nameCol fieldKeys st row h2)

/-- C9 (confirmed).  The editor's in-memory record list always has
pairwise-distinct trimmed names (together with the non-emptiness of every
trimmed name, which the operations rely on): the initial load
(`apply_records`, i.e. the dedup loop) establishes the invariant, and each
operation — add, duplicate, delete, save-edit of the selected record, and the
CSV merge under each of the three policies — preserves it, rejection paths
leaving the list unchanged. -/
theorem editor_distinct_names :
    (∀ rs : List Record, namesOk (dedupRecords rs))
    ∧ (∀ (fieldDefaults : List (String × JVal)) (rs : List Record) (name : String),
        namesOk rs → namesOk (addItem fieldDefaults rs name))
    ∧ (∀ (rs : List Record) (old : String), namesOk rs → namesOk (dupItem rs old))
    ∧ (∀ (rs : List Record) (nm : String), namesOk rs → namesOk (delItem rs nm))
    ∧ (∀ (rs : List Record) (old : String) (rec : Record) (requiredKeys : List String),
        namesOk rs → namesOk (saveCurrentItem rs old rec requiredKeys))
    ∧ (∀ (pol : Policy) (nameCol : String) (fieldKeys : List String) (rs : List Record)
        (rows : List (List (String × String))),
        namesOk rs → namesOk (csvImport pol nameCol fieldKeys rs rows).1) :=
  ⟨fun rs => ⟨(dedupGo_namesOk rs []).1, (dedupGo_namesOk rs []).2.1⟩,
   addItem_namesOk, dupItem_namesOk, delItem_namesOk, saveCurrentItem_namesOk,
   csvImport_namesOk⟩

/-- C9 witness: the invariant holds after loading a duplicate-laden list and is
preserved by a concrete add, duplicate, delete, save and rename-import. -/
theorem editor_distinct_names_witness :
    namesOk (dedupRecords [[("name", JVal.jstr "A")], [("name", JVal.jstr "A")]])
    ∧ (namesOk [[("name", JVal.jstr "A")]]
      ∧ namesOk (addItem [("desc", JVal.jstr "")] [[("name", JVal.jstr "A")]] "B")
      ∧ namesOk (dupItem [[("name", JVal.jstr "A")]] "A")
      ∧ namesOk (delItem [[("name", JVal.jstr "A")]] "A")
      ∧ namesOk (saveCurrentItem [[("name", JVal.jstr "A")]] "A"
          [("name", JVal.jstr "A2")] ["name"])
      ∧ namesOk (csvImport .rename "name" ["name"] [[("name", JVal.jstr "A")]]
          [[("name", "A")]]).1) := by
  have h : namesOk [[("name", JVal.jstr "A")]] := by
    constructor
    · intro r hr
      obtain rfl : r = [("name", JVal.jstr "A")] := by simpa using hr
      decide
    · decide
  exact ⟨editor_distinct_names.1 [[("name", JVal.jstr "A")], [("name", JVal.jstr "A")]],
    h,
    editor_distinct_names.2.1 [("desc", JVal.jstr "")] [[("name", JVal.jstr "A")]] "B" h,
    editor_distinct_names.2.2.1 [[("name", JVal.jstr "A")]] "A" h,
    editor_distinct_names.2.2.2.1 [[("name", JVal.jstr "A")]] "A" h,
    editor_distinct_names.2.2.2.2.1 [[("name", JVal.jstr "A")]] "A"
      [("name", JVal.jstr "A2")] ["name"] h,
    editor_distinct_names.2.2.2.2.2 .rename "name" ["name"] [[("name", JVal.jstr "A")]]
      [[("name", "A")]] h⟩

end DB
